import Mathlib

/-!
Verification development for the outbound-lb forward proxy.

The Go source is shallowly embedded: Go maps become association lists,
machine integers become `Int` (the Go code never approaches the `int64`
overflow boundaries on the paths modelled here, and all comparisons are
translated literally), `time.Time` values become `Int` instants, and
fallible operations return explicit result values.  Concurrency-guarded
code is modelled as the sequential interleaving of its operations, which
is what the claims quantify over ("sequences of operations").
-/

namespace OutboundLB

/-! ### Association-list maps (the embedding of Go maps with `string` keys) -/

/-- A Go `map[string]int64` (or `map[string]*atomic.Int64`) as an
association list. -/
abbrev Counters := List (String × Int)

/-- Membership test, mirroring `_, exists := m[ip]`. -/
def containsC (m : Counters) (ip : String) : Bool :=
  m.any (fun p => p.1 = ip)

/-- Reading `m[ip]`, with the Go zero value `0` for a missing key. -/
def lookupVal (m : Counters) (ip : String) : Int :=
  match m.find? (fun p => p.1 = ip) with
  | some p => p.2
  | none => 0

/-- Writing `m[ip] = v`: replace the binding if present, insert otherwise. -/
def setC (m : Counters) (ip : String) (v : Int) : Counters :=
  match m with
  | [] => [(ip, v)]
  | p :: rest => if p.1 = ip then (ip, v) :: rest else p :: setC rest ip v

theorem lookupVal_setC_self (m : Counters) (ip : String) (v : Int) :
    lookupVal (setC m ip v) ip = v := by
  induction m with
  | nil => simp [setC, lookupVal, List.find?]
  | cons p rest ih =>
    by_cases h : p.1 = ip
    · simp [setC, h, lookupVal, List.find?]
    · simpa [setC, h, lookupVal, List.find?] using ih

theorem lookupVal_setC_ne (m : Counters) (ip j : String) (v : Int) (hj : j ≠ ip) :
    lookupVal (setC m ip v) j = lookupVal m j := by
  induction m with
  | nil => simp [setC, lookupVal, List.find?, Ne.symm hj]
  | cons p rest ih =>
    obtain ⟨k, w⟩ := p
    by_cases h : k = ip
    · subst h
      simp [setC, lookupVal, List.find?, Ne.symm hj]
    · by_cases h2 : k = j
      · subst h2
        simp [setC, h, lookupVal, List.find?]
      · simpa [setC, h, lookupVal, List.find?, h2] using ih

theorem containsC_setC (m : Counters) (ip j : String) (v : Int) :
    containsC (setC m ip v) j = (decide (j = ip) || containsC m j) := by
  induction m with
  | nil => simp [setC, containsC, List.any, eq_comm]
  | cons p rest ih =>
    obtain ⟨k, w⟩ := p
    by_cases h : k = ip
    · subst h
      by_cases h2 : k = j <;> simp [setC, containsC, List.any, h2, eq_comm]
    · by_cases h2 : k = j
      · subst h2
        simp [setC, h, containsC, List.any]
      · simp only [setC, h, if_false, containsC, List.any_cons] at *
        simp [h2, ih, containsC]

theorem lookupVal_eq_zero_of_not_contains (m : Counters) (ip : String)
    (h : containsC m ip = false) : lookupVal m ip = 0 := by
  induction m with
  | nil => simp [lookupVal, List.find?]
  | cons p rest ih =>
    simp only [containsC, List.any_cons, Bool.or_eq_false_iff] at h
    have h1 : ¬(p.1 = ip) := by simpa using h.1
    have h2 := ih (by simpa [containsC] using h.2)
    simpa [lookupVal, List.find?, h1] using h2

/-! ### Limiter state and operations (src/internal/limiter/limiter.go) -/

/-- The mutable state of `limiter.Limiter`: the `total` counter and the
`perIP` counter map.  The limits are passed as parameters (they are read
once at the top of `Acquire`). -/
structure LimState where
  total : Int
  perIP : Counters
deriving Repr, DecidableEq

/-- Result of `Limiter.Acquire`: `nil`, `ErrIPLimitReached`, or
`ErrTotalLimitReached`. -/
inductive AcqResult where
  | ok
  | errIPLimitReached
  | errTotalLimitReached
deriving Repr, DecidableEq

/-- `limiter.New(maxPerIP, maxTotal, ips)`: every configured IP gets a
zeroed counter; the limits live outside the state. -/
def newLimiter (ips : List String) : LimState :=
  { total := 0, perIP := ips.foldl (fun m ip => setC m ip 0) [] }

/-- `Limiter.Acquire(ip)`.  In the sequential embedding each CAS loop
succeeds on the first try, so it reduces to: check the total cap and
increment; get-or-create the per-IP counter; check the per-IP cap and
either roll the total back by one or increment the per-IP counter. -/
def acquire (maxPerIP maxTotal : Int) (s : LimState) (ip : String) :
    AcqResult × LimState :=
  if s.total ≥ maxTotal then
    (AcqResult.errTotalLimitReached, s)
  else
    let withCtr := if containsC s.perIP ip then s.perIP else setC s.perIP ip 0
    let c := lookupVal withCtr ip
    if c ≥ maxPerIP then
      (AcqResult.errIPLimitReached, { total := s.total + 1 - 1, perIP := withCtr })
    else
      (AcqResult.ok, { total := s.total + 1, perIP := setC withCtr ip (c + 1) })

/-- `Limiter.Release(ip)`: decrement the per-IP counter only if it exists,
always decrement the total. -/
def release (s : LimState) (ip : String) : LimState :=
  { total := s.total - 1,
    perIP :=
      if containsC s.perIP ip then
        setC s.perIP ip (lookupVal s.perIP ip - 1)
      else
        s.perIP }

/-- `Limiter.GetIPCount(ip)`: `0` for an unknown IP. -/
def getIPCount (s : LimState) (ip : String) : Int :=
  lookupVal s.perIP ip

/-- `Limiter.GetTotalCount()`. -/
def getTotalCount (s : LimState) : Int :=
  s.total

/-- `Limiter.IsIPAvailable(ip)`: unknown IPs are available. -/
def isIPAvailable (maxPerIP : Int) (s : LimState) (ip : String) : Bool :=
  if containsC s.perIP ip then lookupVal s.perIP ip < maxPerIP else true

/-- `Limiter.GetAvailableIPs(ips)` (the pooling is immaterial to the
value): filter by `IsIPAvailable`. -/
def getAvailableIPsLim (maxPerIP : Int) (s : LimState) (ips : List String) :
    List String :=
  ips.filter (isIPAvailable maxPerIP s)

/-! ### Limiter traces

A client interaction is a sequence of `Acquire`/`Release` calls.  A trace
is well formed when every `Release(ip)` consumes one still-pending
successful `Acquire(ip)`; the ghost list `pend` records the pending
acquisitions. -/

/-- One limiter call. -/
inductive LimOp where
  | acq (ip : String)
  | rel (ip : String)
deriving Repr, DecidableEq

/-- State transition of one call (the result of `Acquire` is discarded
here; well-formedness tracks it). -/
def limStep (maxPerIP maxTotal : Int) (s : LimState) (op : LimOp) : LimState :=
  match op with
  | LimOp.acq ip => (acquire maxPerIP maxTotal s ip).2
  | LimOp.rel ip => release s ip

/-- Running a trace from a state. -/
def limRun (maxPerIP maxTotal : Int) (s : LimState) (ops : List LimOp) : LimState :=
  ops.foldl (limStep maxPerIP maxTotal) s

/-- Well-formedness of a trace relative to the ghost list `pend` of
pending successful acquisitions: a `rel ip` must find `ip` pending. -/
def wfAux (maxPerIP maxTotal : Int) (pend : List String) (s : LimState) :
    List LimOp → Bool
  | [] => true
  | LimOp.acq ip :: ops =>
    let r := acquire maxPerIP maxTotal s ip
    wfAux maxPerIP maxTotal (if r.1 = AcqResult.ok then ip :: pend else pend) r.2 ops
  | LimOp.rel ip :: ops =>
    pend.contains ip && wfAux maxPerIP maxTotal (pend.erase ip) (release s ip) ops

/-- A trace from a fresh limiter in which each `Release(ip)` is preceded
by a matching, still-unreleased, successful `Acquire(ip)`. -/
def wfTrace (maxPerIP maxTotal : Int) (ips : List String) (ops : List LimOp) : Bool :=
  wfAux maxPerIP maxTotal [] (newLimiter ips) ops

/-- Number of successful `Acquire` calls along a trace. -/
def succCount (maxPerIP maxTotal : Int) (s : LimState) : List LimOp → Nat
  | [] => 0
  | LimOp.acq ip :: ops =>
    let r := acquire maxPerIP maxTotal s ip
    (if r.1 = AcqResult.ok then 1 else 0) + succCount maxPerIP maxTotal r.2 ops
  | LimOp.rel ip :: ops => succCount maxPerIP maxTotal (release s ip) ops

/-- Number of `Release` calls in a trace. -/
def relCount : List LimOp → Nat
  | [] => 0
  | LimOp.acq _ :: ops => relCount ops
  | LimOp.rel _ :: ops => 1 + relCount ops

/-- The counter bounds the claims assert at every observable point. -/
def boundsOK (maxPerIP maxTotal : Int) (s : LimState) : Prop :=
  0 ≤ getTotalCount s ∧ getTotalCount s ≤ maxTotal ∧
    ∀ ip, 0 ≤ getIPCount s ip ∧ getIPCount s ip ≤ maxPerIP

/-- The coupling invariant between the ghost pending list and the limiter
state: the total counter counts pending acquisitions, each per-IP counter
counts pending acquisitions of that IP, and the caps hold. -/
def InvG (maxPerIP maxTotal : Int) (pend : List String) (s : LimState) : Prop :=
  getTotalCount s = (pend.length : Int) ∧
    (∀ ip, getIPCount s ip = (pend.count ip : Int)) ∧
    getTotalCount s ≤ maxTotal ∧
    (∀ ip, getIPCount s ip ≤ maxPerIP)

theorem invG_boundsOK {maxPerIP maxTotal : Int} {pend : List String} {s : LimState}
    (h : InvG maxPerIP maxTotal pend s) : boundsOK maxPerIP maxTotal s := by
  obtain ⟨h1, h2, h3, h4⟩ := h
  refine ⟨by simp [h1], h3, fun ip => ⟨by simp [h2 ip], h4 ip⟩⟩

theorem invG_newLimiter (maxPerIP maxTotal : Int) (ips : List String)
    (hP : 0 ≤ maxPerIP) (hT : 0 ≤ maxTotal) :
    InvG maxPerIP maxTotal [] (newLimiter ips) := by
  have hlook : ∀ ip, getIPCount (newLimiter ips) ip = 0 := by
    intro ip
    show lookupVal (ips.foldl (fun m j => setC m j 0) []) ip = 0
    have : ∀ (l : List String) (m : Counters),
        (∀ j, lookupVal m j = 0) → ∀ j, lookupVal (l.foldl (fun m j => setC m j 0) m) j = 0 := by
      intro l
      induction l with
      | nil => intro m hm j; simpa using hm j
      | cons a rest ih =>
        intro m hm j
        refine ih (setC m a 0) ?_ j
        intro j2
        by_cases hj : j2 = a
        · subst hj; simp [lookupVal_setC_self]
        · rw [lookupVal_setC_ne m a j2 0 hj]; exact hm j2
    exact this ips [] (fun j => by simp [lookupVal, List.find?]) ip
  refine ⟨by simp [newLimiter, getTotalCount], ?_, by simp [newLimiter, getTotalCount, hT], ?_⟩
  · intro ip; simp [hlook ip]
  · intro ip; simp [hlook ip, hP]

theorem invG_acquire {maxPerIP maxTotal : Int} {pend : List String} {s : LimState}
    (h : InvG maxPerIP maxTotal pend s) (ip : String) :
    InvG maxPerIP maxTotal
      (if (acquire maxPerIP maxTotal s ip).1 = AcqResult.ok then ip :: pend else pend)
      (acquire maxPerIP maxTotal s ip).2 := by
  obtain ⟨h1, h2, h3, h4⟩ := h
  by_cases ht : s.total ≥ maxTotal
  · simp [acquire, ht]
    exact ⟨h1, h2, h3, h4⟩
  · have hlookW : ∀ j, lookupVal (if containsC s.perIP ip then s.perIP else setC s.perIP ip 0) j
        = lookupVal s.perIP j := by
      intro j
      by_cases hc : containsC s.perIP ip
      · simp [hc]
      · simp only [hc, Bool.false_eq_true, if_false]
        by_cases hj : j = ip
        · subst hj
          rw [lookupVal_setC_self]
          exact (lookupVal_eq_zero_of_not_contains s.perIP j (by simpa using hc)).symm
        · exact lookupVal_setC_ne s.perIP ip j 0 hj
    by_cases hip : lookupVal (if containsC s.perIP ip then s.perIP else setC s.perIP ip 0) ip ≥ maxPerIP
    · simp only [acquire, ht, if_false, hip, if_true]
      simp only [reduceCtorEq, if_false]
      refine ⟨?_, ?_, ?_, ?_⟩
      · simpa [getTotalCount] using h1
      · intro j; simpa [getIPCount, hlookW j] using h2 j
      · simpa [getTotalCount] using h3
      · intro j; simpa [getIPCount, hlookW j] using h4 j
    · simp only [acquire, ht, if_false, hip, if_true]
      push_neg at ht hip
      constructor
      · simp only [getTotalCount] at h1 ⊢
        simp [h1, List.length_cons]
      refine ⟨?_, ?_, ?_⟩
      · intro j
        simp only [getIPCount] at h2 ⊢
        by_cases hj : j = ip
        · subst hj
          rw [lookupVal_setC_self, hlookW j, h2 j]
          simp [List.count_cons_self]
        · rw [lookupVal_setC_ne _ ip j _ hj, hlookW j, h2 j]
          simp [List.count_cons_of_ne hj]
      · simp only [getTotalCount]
        omega
      · intro j
        simp only [getIPCount] at h4 ⊢
        by_cases hj : j = ip
        · subst hj
          rw [lookupVal_setC_self]
          omega
        · rw [lookupVal_setC_ne _ ip j _ hj, hlookW j]
          exact h4 j

theorem invG_release {maxPerIP maxTotal : Int} {pend : List String} {s : LimState}
    (h : InvG maxPerIP maxTotal pend s) (ip : String) (hmem : ip ∈ pend) :
    InvG maxPerIP maxTotal (pend.erase ip) (release s ip) := by
  obtain ⟨h1, h2, h3, h4⟩ := h
  have hcount : 1 ≤ pend.count ip := List.one_le_count_iff.mpr hmem
  have hlookpos : 1 ≤ lookupVal s.perIP ip := by
    have h2ip := h2 ip
    simp only [getIPCount] at h2ip
    rw [h2ip]
    exact_mod_cast hcount
  have hc : containsC s.perIP ip = true := by
    by_contra hc
    have := lookupVal_eq_zero_of_not_contains s.perIP ip (by simpa using hc)
    omega
  have hlen : 1 ≤ pend.length := List.length_pos.mpr (List.ne_nil_of_mem hmem)
  refine ⟨?_, ?_, ?_, ?_⟩
  · simp only [getTotalCount, release] at h1 ⊢
    rw [List.length_erase_of_mem hmem]
    omega
  · intro j
    simp only [getIPCount, release, hc, if_true] at h2 ⊢
    by_cases hj : j = ip
    · subst hj
      rw [lookupVal_setC_self, List.count_erase_self, h2 j]
      omega
    · rw [lookupVal_setC_ne _ ip j _ hj, List.count_erase_of_ne hj, h2 j]
  · simp only [getTotalCount, release] at h3 ⊢
    omega
  · intro j
    simp only [getIPCount, release, hc, if_true] at h4 ⊢
    by_cases hj : j = ip
    · subst hj
      rw [lookupVal_setC_self]
      have := h4 j
      omega
    · rw [lookupVal_setC_ne _ ip j _ hj]
      exact h4 j

theorem wfAux_boundsOK {maxPerIP maxTotal : Int} :
    ∀ (ops : List LimOp) (pend : List String) (s : LimState),
      wfAux maxPerIP maxTotal pend s ops = true →
      InvG maxPerIP maxTotal pend s →
      ∀ n, boundsOK maxPerIP maxTotal (limRun maxPerIP maxTotal s (ops.take n)) := by
  intro ops
  induction ops with
  | nil =>
    intro pend s _ hinv n
    simpa [limRun] using invG_boundsOK hinv
  | cons op ops ih =>
    intro pend s hwf hinv n
    match n with
    | 0 => simpa [limRun] using invG_boundsOK hinv
    | Nat.succ n =>
      rw [List.take_succ_cons]
      show boundsOK maxPerIP maxTotal
        (limRun maxPerIP maxTotal (limStep maxPerIP maxTotal s op) (ops.take n))
      match op with
      | LimOp.acq ip =>
        simp only [wfAux] at hwf
        exact ih _ _ hwf (invG_acquire hinv ip) n
      | LimOp.rel ip =>
        simp only [wfAux, Bool.and_eq_true] at hwf
        have hmem : ip ∈ pend := by
          have := hwf.1
          simpa [List.contains_iff_exists_mem_beq, beq_iff_eq] using this
        exact ih _ _ hwf.2 (invG_release hinv ip hmem) n

theorem wfAux_final_invG {maxPerIP maxTotal : Int} :
    ∀ (ops : List LimOp) (pend : List String) (s : LimState),
      wfAux maxPerIP maxTotal pend s ops = true →
      InvG maxPerIP maxTotal pend s →
      ∃ pend', InvG maxPerIP maxTotal pend' (limRun maxPerIP maxTotal s ops) ∧
        pend'.length + relCount ops = pend.length + succCount maxPerIP maxTotal s ops := by
  intro ops
  induction ops with
  | nil =>
    intro pend s _ hinv
    exact ⟨pend, by simpa [limRun] using hinv, by simp [relCount, succCount]⟩
  | cons op ops ih =>
    intro pend s hwf hinv
    match op with
    | LimOp.acq ip =>
      simp only [wfAux] at hwf
      obtain ⟨pend', hinv', hlen⟩ := ih _ _ hwf (invG_acquire hinv ip)
      refine ⟨pend', ?_, ?_⟩
      · simpa [limRun, limStep] using hinv'
      · simp only [relCount, succCount]
        by_cases hok : (acquire maxPerIP maxTotal s ip).1 = AcqResult.ok
        · simp only [hok, if_true] at hlen ⊢
          simp only [List.length_cons] at hlen
          omega
        · simp only [hok, if_false] at hlen ⊢
          omega
    | LimOp.rel ip =>
      simp only [wfAux, Bool.and_eq_true] at hwf
      have hmem : ip ∈ pend := by
        have := hwf.1
        simpa [List.contains_iff_exists_mem_beq, beq_iff_eq] using this
      obtain ⟨pend', hinv', hlen⟩ := ih _ _ hwf.2 (invG_release hinv ip hmem)
      have hplen : 1 ≤ pend.length := List.length_pos.mpr (List.ne_nil_of_mem hmem)
      refine ⟨pend', ?_, ?_⟩
      · simpa [limRun, limStep] using hinv'
      · simp only [relCount, succCount]
        rw [List.length_erase_of_mem hmem] at hlen
        omega

/-- C1: along every trace from a fresh limiter in which each `Release(ip)`
consumes a pending successful `Acquire(ip)`, every observable state keeps
`0 ≤ GetIPCount(ip) ≤ maxPerIP` for all IPs and
`0 ≤ GetTotalCount() ≤ maxTotal`; and if every successful `Acquire` is
paired with a `Release` (equal counts), the final total and all per-IP
counts are zero. -/
theorem limiter_trace_invariants (maxPerIP maxTotal : Int) (ips : List String)
    (ops : List LimOp) (hP : 0 ≤ maxPerIP) (hT : 0 ≤ maxTotal)
    (hwf : wfTrace maxPerIP maxTotal ips ops = true) :
    (∀ n, boundsOK maxPerIP maxTotal
        (limRun maxPerIP maxTotal (newLimiter ips) (ops.take n))) ∧
    (relCount ops = succCount maxPerIP maxTotal (newLimiter ips) ops →
      getTotalCount (limRun maxPerIP maxTotal (newLimiter ips) ops) = 0 ∧
      ∀ ip, getIPCount (limRun maxPerIP maxTotal (newLimiter ips) ops) ip = 0) := by
  have hinv0 := invG_newLimiter maxPerIP maxTotal ips hP hT
  constructor
  · exact wfAux_boundsOK ops [] (newLimiter ips) hwf hinv0
  · intro hbal
    obtain ⟨pend', hinv', hlen⟩ := wfAux_final_invG ops [] (newLimiter ips) hwf hinv0
    have hnil : pend' = [] := by
      have : pend'.length = 0 := by
        simp only [List.length_nil] at hlen
        omega
      exact List.length_eq_zero.mp this
    subst hnil
    obtain ⟨h1, h2, _, _⟩ := hinv'
    exact ⟨by simpa using h1, fun ip => by simpa using h2 ip⟩

/-- C1 witness: a concrete well-formed balanced trace. -/
theorem limiter_trace_invariants_witness :
    boundsOK 1 2 (limRun 1 2 (newLimiter ["10.0.0.1"])
      ([LimOp.acq "10.0.0.1", LimOp.rel "10.0.0.1"].take 1)) ∧
    getTotalCount (limRun 1 2 (newLimiter ["10.0.0.1"])
      [LimOp.acq "10.0.0.1", LimOp.rel "10.0.0.1"]) = 0 := by
  have h := limiter_trace_invariants 1 2 ["10.0.0.1"]
    [LimOp.acq "10.0.0.1", LimOp.rel "10.0.0.1"]
    (by decide) (by decide) (by decide)
  exact ⟨h.1 1, (h.2 (by decide)).1⟩

/-- C2: a failed `Acquire` (either error) leaves the total counter and
every per-IP counter exactly at their pre-call values. -/
theorem acquire_failure_no_leak (maxPerIP maxTotal : Int) (s : LimState) (ip : String)
    (h : (acquire maxPerIP maxTotal s ip).1 ≠ AcqResult.ok) :
    getTotalCount (acquire maxPerIP maxTotal s ip).2 = getTotalCount s ∧
    ∀ j, getIPCount (acquire maxPerIP maxTotal s ip).2 j = getIPCount s j := by
  by_cases ht : s.total ≥ maxTotal
  · simp [acquire, ht, getTotalCount, getIPCount]
  · have hlookW : ∀ j, lookupVal (if containsC s.perIP ip then s.perIP else setC s.perIP ip 0) j
        = lookupVal s.perIP j := by
      intro j
      by_cases hc : containsC s.perIP ip
      · simp [hc]
      · simp only [hc, Bool.false_eq_true, if_false]
        by_cases hj : j = ip
        · subst hj
          rw [lookupVal_setC_self]
          exact (lookupVal_eq_zero_of_not_contains s.perIP j (by simpa using hc)).symm
        · exact lookupVal_setC_ne s.perIP ip j 0 hj
    by_cases hip : lookupVal (if containsC s.perIP ip then s.perIP else setC s.perIP ip 0) ip ≥ maxPerIP
    · constructor
      · simp [acquire, ht, hip, getTotalCount]
      · intro j
        simp only [acquire, ht, if_false, hip, if_true, getIPCount]
        exact hlookW j
    · exfalso
      apply h
      simp [acquire, ht, hip]

/-- C2 witness: the per-IP cap failure path on a concrete limiter. -/
theorem acquire_failure_no_leak_witness :
    (acquire 0 5 (newLimiter ["10.0.0.1"]) "10.0.0.1").1 ≠ AcqResult.ok ∧
    getTotalCount (acquire 0 5 (newLimiter ["10.0.0.1"]) "10.0.0.1").2
      = getTotalCount (newLimiter ["10.0.0.1"]) := by
  refine ⟨by decide, ?_⟩
  exact (acquire_failure_no_leak 0 5 (newLimiter ["10.0.0.1"]) "10.0.0.1" (by decide)).1

/-- C10: `Release` is infallible and always decrements the total counter
by one, decrements the per-IP counter only when it exists, and in
particular an unmatched `Release` drives `GetTotalCount()` negative. -/
theorem release_unconditional_decrement :
    (∀ (s : LimState) (ip : String),
      getTotalCount (release s ip) = getTotalCount s - 1) ∧
    (∀ (s : LimState) (ip j : String),
      getIPCount (release s ip) j =
        if containsC s.perIP ip = true ∧ j = ip then getIPCount s j - 1
        else getIPCount s j) ∧
    getTotalCount (release (newLimiter ["10.0.0.1"]) "10.0.0.1") = -1 := by
  refine ⟨fun s ip => rfl, ?_, by decide⟩
  intro s ip j
  by_cases hc : containsC s.perIP ip
  · by_cases hj : j = ip
    · subst hj
      simp [release, hc, getIPCount, lookupVal_setC_self]
    · simp [release, hc, getIPCount, lookupVal_setC_ne s.perIP ip j _ hj, hj]
  · simp [release, hc, getIPCount]

/-! ### LRU balancer selection (src balancer `lru.go`)

Timestamps are `Int` instants; the Go zero `time.Time` is the instant `0`
(`IsZero` becomes `= 0`, `Before` becomes `<`, `After` becomes `>`). -/

/-- A usage record `balancer.Entry`. -/
structure BalEntry where
  ip : String
  ts : Int
deriving Repr, DecidableEq

/-- `math.MaxInt` on a 64-bit build. -/
def maxIntGo : Int := 2 ^ 63 - 1

/-- The per-call usage map `ctx.usageCount`: reading a missing key gives
`0`, so it is the number of filtered-history entries for the IP. -/
def usageOf (entries : List BalEntry) (ip : String) : Int :=
  ((entries.filter (fun e => e.ip = ip)).length : Int)

/-- The per-call last-use map `ctx.lastUsed`, built exactly as the Go loop
does: keep the latest timestamp seen per IP, tracking key existence. -/
def lastUsedMap (entries : List BalEntry) : List (String × Int) :=
  entries.foldl
    (fun m e =>
      if containsC m e.ip then
        if e.ts > lookupVal m e.ip then setC m e.ip e.ts else m
      else
        setC m e.ip e.ts)
    []

/-- The running accumulator of the selection loop in `LRU.Select`. -/
structure SelAcc where
  selectedIP : String
  minUsage : Int
  oldestUse : Int
deriving Repr, DecidableEq

/-- One iteration of the selection loop: lower usage wins; on a usage tie
the candidate wins whenever its last use is the zero instant or is older
than the current best. -/
def selStep (usage lastU : String → Int) (acc : SelAcc) (ip : String) : SelAcc :=
  let u := usage ip
  let lu := lastU ip
  if u < acc.minUsage then
    { selectedIP := ip, minUsage := u, oldestUse := lu }
  else if u = acc.minUsage then
    if lu = 0 ∨ lu < acc.oldestUse then
      { selectedIP := ip, minUsage := acc.minUsage, oldestUse := lu }
    else acc
  else acc

/-- `LRU.Select`'s error. -/
inductive SelectErr where
  | noAvailableIPs
deriving Repr, DecidableEq

/-- The selection part of `LRU.Select`, given the already-filtered
candidate list and the filtered history entries for the host. -/
def lruSelect (availableIPs : List String) (entries : List BalEntry) :
    Except SelectErr String :=
  if availableIPs.length = 0 then
    Except.error SelectErr.noAvailableIPs
  else
    let usage := usageOf entries
    let lastU := fun ip => lookupVal (lastUsedMap entries) ip
    let acc := availableIPs.foldl (selStep usage lastU)
      { selectedIP := "", minUsage := maxIntGo, oldestUse := 0 }
    Except.ok acc.selectedIP

/-- `LRU.getAvailableIPs`: health filter with graceful degradation, then
limiter filter.  The two collaborators are their contracts: the health
checker filters by `IsHealthy` (src/internal/health/checker_tcp.go,
`GetHealthyIPs`), the limiter filters by `IsIPAvailable`
(src/internal/limiter/limiter.go, `GetAvailableIPs`). -/
def getAvailableIPs (ips : List String) (healthy : Option (String → Bool))
    (avail : Option (String → Bool)) : List String :=
  let ips1 :=
    match healthy with
    | none => ips
    | some hOK =>
      let healthyIPs := ips.filter hOK
      if healthyIPs.length = 0 then ips else healthyIPs
  match avail with
  | none => ips1
  | some aOK => ips1.filter aOK

/-- `LRU.Select(host)` assembled from its two phases. -/
def lruSelectFull (ips : List String) (healthy : Option (String → Bool))
    (avail : Option (String → Bool)) (entries : List BalEntry) :
    Except SelectErr String :=
  lruSelect (getAvailableIPs ips healthy avail) entries

theorem selStep_selectedIP (u lastU : String → Int) (acc : SelAcc) (ip : String) :
    (selStep u lastU acc ip).selectedIP = acc.selectedIP ∨
      (selStep u lastU acc ip).selectedIP = ip := by
  unfold selStep
  by_cases h1 : u ip < acc.minUsage
  · simp [h1]
  · by_cases h2 : u ip = acc.minUsage
    · by_cases h3 : lastU ip = 0 ∨ lastU ip < acc.oldestUse
      · simp [h1, h2, h3]
      · simp [h1, h2, h3]
    · simp [h1, h2]

theorem selFold_mem_aux (u lastU : String → Int) (S : List String) :
    ∀ (l : List String) (acc : SelAcc),
      acc.selectedIP ∈ S → (∀ ip ∈ l, ip ∈ S) →
      (l.foldl (selStep u lastU) acc).selectedIP ∈ S := by
  intro l
  induction l with
  | nil => intro acc hacc _; simpa using hacc
  | cons a rest ih =>
    intro acc hacc hsub
    rw [List.foldl_cons]
    refine ih (selStep u lastU acc a) ?_ ?_
    · rcases selStep_selectedIP u lastU acc a with h | h
      · rw [h]; exact hacc
      · rw [h]; exact hsub a (List.mem_cons_self a rest)
    · intro ip hip
      exact hsub ip (List.mem_cons_of_mem a hip)

theorem usageOf_lt_maxIntGo (entries : List BalEntry)
    (hsz : (entries.length : Int) < maxIntGo) (ip : String) :
    usageOf entries ip < maxIntGo := by
  have hle : (entries.filter (fun e => e.ip = ip)).length ≤ entries.length :=
    List.length_filter_le _ _
  have : usageOf entries ip ≤ (entries.length : Int) := by
    simpa [usageOf] using Int.ofNat_le.mpr hle
  omega

/-- C8: `Select` returns `ErrNoAvailableIPs` exactly when the candidate
set built by `getAvailableIPs` (health filter with graceful degradation,
then limiter filter) is empty; when it is non-empty, the chosen IP is a
member of that candidate set.  The size bound reflects Go slices being
shorter than `math.MaxInt`. -/
theorem select_err_iff_no_candidates (ips : List String)
    (healthy avail : Option (String → Bool)) (entries : List BalEntry)
    (hsz : (entries.length : Int) < maxIntGo) :
    (lruSelectFull ips healthy avail entries = Except.error SelectErr.noAvailableIPs
       ↔ getAvailableIPs ips healthy avail = []) ∧
    (∀ ip, lruSelectFull ips healthy avail entries = Except.ok ip →
       ip ∈ getAvailableIPs ips healthy avail) := by
  constructor
  · constructor
    · intro herr
      by_contra hne
      have hlen : ¬(getAvailableIPs ips healthy avail).length = 0 :=
        fun h => hne (List.length_eq_zero.mp h)
      simp [lruSelectFull, lruSelect, hlen] at herr
    · intro hnil
      simp [lruSelectFull, lruSelect, hnil]
  · intro ip hok
    match hc : getAvailableIPs ips healthy avail with
    | [] =>
      rw [lruSelectFull, hc] at hok
      simp [lruSelect] at hok
    | a :: rest =>
      have hlen : ¬(a :: rest).length = 0 := by simp
      rw [lruSelectFull, hc] at hok
      simp only [lruSelect, hlen, if_false, Except.ok.injEq] at hok
      have hfirst :
          (selStep (usageOf entries) (fun j => lookupVal (lastUsedMap entries) j)
            { selectedIP := "", minUsage := maxIntGo, oldestUse := 0 } a).selectedIP = a := by
        have hu : usageOf entries a < maxIntGo := usageOf_lt_maxIntGo entries hsz a
        simp [selStep, hu]
      have hmem : ((a :: rest).foldl
          (selStep (usageOf entries) (fun j => lookupVal (lastUsedMap entries) j))
          { selectedIP := "", minUsage := maxIntGo, oldestUse := 0 }).selectedIP
            ∈ a :: rest := by
        rw [List.foldl_cons]
        refine selFold_mem_aux _ _ (a :: rest) rest _ ?_ ?_
        · rw [hfirst]; exact List.mem_cons_self a rest
        · intro j hj; exact List.mem_cons_of_mem a hj
      rw [hok] at hmem
      exact hmem

theorem selStep_zero (ip0 ip : String) :
    selStep (fun _ => 0) (fun _ => 0) { selectedIP := ip0, minUsage := 0, oldestUse := 0 } ip
      = { selectedIP := ip, minUsage := 0, oldestUse := 0 } := by
  simp [selStep]

theorem selFold_zero :
    ∀ (l : List String) (ip0 : String),
      l.foldl (selStep (fun _ => 0) (fun _ => 0))
          { selectedIP := ip0, minUsage := 0, oldestUse := 0 }
        = { selectedIP := l.getLastD ip0, minUsage := 0, oldestUse := 0 } := by
  intro l
  induction l with
  | nil => intro ip0; simp
  | cons a rest ih =>
    intro ip0
    rw [List.foldl_cons, selStep_zero, ih a, List.getLastD_cons]

/-- C3 counterexample: on a cold start (empty filtered history) with two
available IPs, `Select` returns the second candidate, not the first: the
tie-break `lastUse.IsZero()` replaces the running winner on every
never-used candidate. -/
theorem select_cold_start_counterexample :
    lruSelect ["10.0.0.1", "10.0.0.2"] [] = Except.ok "10.0.0.2" ∧
      Except.ok (ε := SelectErr) "10.0.0.2" ≠ Except.ok "10.0.0.1" := by
  constructor
  · rfl
  · intro h
    exact absurd (Except.ok.inj h) (by decide)

/-- C3 amended: on a cold start (empty filtered history), `Select`
deterministically returns the LAST candidate in iteration order, because
the `lastUse.IsZero()` tie-break replaces the winner at every never-used
candidate. -/
theorem select_cold_start_returns_last (ips : List String) (h2 : 2 ≤ ips.length) :
    lruSelect ips [] = Except.ok (ips.getLastD "") := by
  match ips, h2 with
  | a :: l, _ =>
    have hu : usageOf ([] : List BalEntry) = fun _ => (0 : Int) := by
      funext ip; simp [usageOf]
    have hl : (fun ip => lookupVal (lastUsedMap ([] : List BalEntry)) ip)
        = fun _ => (0 : Int) := by
      funext ip; simp [lastUsedMap, lookupVal, List.find?]
    have hlen : ¬(a :: l).length = 0 := by simp
    simp only [lruSelect, hlen, if_false, hu, hl]
    have hstep : selStep (fun _ => (0 : Int)) (fun _ => (0 : Int))
        { selectedIP := "", minUsage := maxIntGo, oldestUse := 0 } a
          = { selectedIP := a, minUsage := 0, oldestUse := 0 } := by
      have : (0 : Int) < maxIntGo := by decide
      simp [selStep, this]
    rw [List.foldl_cons, hstep, selFold_zero l a, List.getLastD_cons]

/-- C3 amended witness: three candidates, cold start. -/
theorem select_cold_start_returns_last_witness :
    2 ≤ (["10.0.0.1", "10.0.0.2", "10.0.0.3"] : List String).length ∧
    lruSelect ["10.0.0.1", "10.0.0.2", "10.0.0.3"] []
      = Except.ok ((["10.0.0.1", "10.0.0.2", "10.0.0.3"] : List String).getLastD "") :=
  ⟨by decide,
    select_cold_start_returns_last ["10.0.0.1", "10.0.0.2", "10.0.0.3"] (by decide)⟩

/-- C8 witness: the empty-candidate case at concrete inputs. -/
theorem select_err_iff_no_candidates_witness :
    (([] : List BalEntry).length : Int) < maxIntGo ∧
    (lruSelectFull ["10.0.0.1"] none (some (fun _ => false)) []
        = Except.error SelectErr.noAvailableIPs
      ↔ getAvailableIPs ["10.0.0.1"] none (some (fun _ => false)) = []) :=
  ⟨by decide,
    (select_err_iff_no_candidates ["10.0.0.1"] none (some (fun _ => false)) []
      (by decide)).1⟩

/-! ### String utilities (Go `strings` functions on `List Char`)

Go strings are embedded as `List Char`. -/

/-- `strings.HasPrefix(s, pre)`. -/
def goHasPrefix : List Char → List Char → Bool
  | _, [] => true
  | [], _ :: _ => false
  | x :: xs, y :: ys => x = y && goHasPrefix xs ys

/-- Splitting at the first occurrence of `c`: the pair
(before, after), or `none` when `c` does not occur.  This is
`strings.Cut` / `strings.Index` plus slicing, and the `len(parts) == 2`
case of `strings.SplitN(s, c, 2)`. -/
def splitAtFirst (c : Char) : List Char → Option (List Char × List Char)
  | [] => none
  | x :: xs =>
    if x = c then some ([], xs)
    else
      match splitAtFirst c xs with
      | none => none
      | some (a, b) => some (x :: a, b)

theorem splitAtFirst_append (c : Char) (pre rest : List Char) (hpre : c ∉ pre) :
    splitAtFirst c (pre ++ c :: rest) = some (pre, rest) := by
  induction pre with
  | nil => simp [splitAtFirst]
  | cons x xs ih =>
    have hx : ¬x = c := fun h => hpre (by simp [h])
    have hxs : c ∉ xs := fun h => hpre (List.mem_cons_of_mem x h)
    simp [splitAtFirst, hx, ih hxs]

theorem splitAtFirst_eq_none (c : Char) (s : List Char) (h : c ∉ s) :
    splitAtFirst c s = none := by
  induction s with
  | nil => rfl
  | cons x xs ih =>
    have hx : ¬x = c := fun hh => h (by simp [hh])
    have hxs : c ∉ xs := fun hh => h (List.mem_cons_of_mem x hh)
    simp [splitAtFirst, hx, ih hxs]

theorem splitAtFirst_some (c : Char) :
    ∀ (s a b : List Char), splitAtFirst c s = some (a, b) →
      s = a ++ c :: b ∧ c ∉ a := by
  intro s
  induction s with
  | nil => intro a b h; simp [splitAtFirst] at h
  | cons x xs ih =>
    intro a b h
    by_cases hx : x = c
    · simp [splitAtFirst, hx] at h
      obtain ⟨ha, hb⟩ := h
      subst hx; subst hb
      subst ha
      simp
    · simp only [splitAtFirst, hx, if_false] at h
      match hs : splitAtFirst c xs with
      | none => rw [hs] at h; simp at h
      | some (a2, b2) =>
        rw [hs] at h
        simp only [Option.some.injEq, Prod.mk.injEq] at h
        obtain ⟨ha, hb⟩ := h
        obtain ⟨hxs, hnot⟩ := ih a2 b2 hs
        subst hb
        refine ⟨by simp [← ha, hxs], ?_⟩
        rw [← ha]
        intro hmem
        rcases List.mem_cons.mp hmem with h1 | h1
        · exact hx h1.symm
        · exact hnot h1

/-! ### Client IP extraction (src/internal/proxy/handler.go, getClientIP) -/

/-- Scan for the last occurrence of the two-character substring `]:`,
carrying the running index and the best match so far
(`strings.LastIndex(s, "]:")`). -/
def lastIndexBCAux : List Char → Nat → Option Nat → Option Nat
  | [], _, best => best
  | [_], _, best => best
  | x :: y :: rest, i, best =>
    if x = ']' ∧ y = ':' then lastIndexBCAux (y :: rest) (i + 1) (some i)
    else lastIndexBCAux (y :: rest) (i + 1) best

/-- `strings.LastIndex(s, "]:")` (`none` for `-1`). -/
def lastIndexBC (s : List Char) : Option Nat :=
  lastIndexBCAux s 0 none

/-- Whether the substring `]:` occurs. -/
def hasBC : List Char → Bool
  | [] => false
  | [_] => false
  | x :: y :: rest => if x = ']' ∧ y = ':' then true else hasBC (y :: rest)

/-- `Handler.getClientIP` on the request's remote address: a bracketed
address is cut at the last `]:` and stripped of the leading `[`
(`r.RemoteAddr[1:idx]`); otherwise the address is cut at the first `:`
(`strings.Cut`); with no colon the whole address is returned. -/
def getClientIP (remoteAddr : List Char) : List Char :=
  if goHasPrefix remoteAddr ['['] = true then
    match lastIndexBC remoteAddr with
    | some idx => (remoteAddr.take idx).drop 1
    | none => remoteAddr
  else
    match splitAtFirst ':' remoteAddr with
    | some (host, _) => host
    | none => remoteAddr

theorem lastIndexBCAux_no_pair :
    ∀ (s : List Char) (i : Nat) (best : Option Nat),
      hasBC s = false → lastIndexBCAux s i best = best := by
  intro s
  induction s with
  | nil => intro i best _; rfl
  | cons x xs ih =>
    intro i best h
    match xs with
    | [] => rfl
    | y :: rest =>
      by_cases hxy : x = ']' ∧ y = ':'
      · simp [hasBC, hxy] at h
      · simp only [lastIndexBCAux, hxy, if_false]
        exact ih (i + 1) best (by simpa [hasBC, hxy] using h)

theorem lastIndexBCAux_append :
    ∀ (inner rest : List Char) (i : Nat) (best : Option Nat),
      hasBC rest = false →
      lastIndexBCAux (inner ++ ']' :: ':' :: rest) i best = some (i + inner.length) := by
  intro inner
  induction inner with
  | nil =>
    intro rest i best h
    have hpair : (']' : Char) = ']' ∧ (':' : Char) = ':' := ⟨rfl, rfl⟩
    simp only [List.nil_append, lastIndexBCAux, hpair, if_true, and_self]
    have hrest : hasBC (':' :: rest) = false := by
      match rest with
      | [] => rfl
      | z :: rest2 => simpa [hasBC] using h
    rw [lastIndexBCAux_no_pair (':' :: rest) (i + 1) (some i) hrest]
    simp
  | cons x inner' ih =>
    intro rest i best h
    have hcons : ∃ z t, inner' ++ ']' :: ':' :: rest = z :: t := by
      match inner' with
      | [] => exact ⟨']', ':' :: rest, rfl⟩
      | y :: t2 => exact ⟨y, t2 ++ ']' :: ':' :: rest, rfl⟩
    obtain ⟨z, t, hzt⟩ := hcons
    have hih1 := ih rest (i + 1) (some i) h
    have hih2 := ih rest (i + 1) best h
    rw [hzt] at hih1 hih2
    rw [List.cons_append, hzt]
    simp only [lastIndexBCAux]
    split
    · rw [hih1]
      simp only [List.length_cons, Option.some.injEq]
      omega
    · rw [hih2]
      simp only [List.length_cons, Option.some.injEq]
      omega

/-- C4 counterexample: an unbracketed address with two colons is cut at
the FIRST colon (`strings.Cut`), not the last: `1:2:3` yields host `1`,
while the claim requires `1:2`. -/
theorem getClientIP_counterexample :
    getClientIP ("1:2:3".toList) = "1".toList ∧ "1".toList ≠ "1:2".toList := by
  constructor
  · rfl
  · decide

/-- C4 amended: `getClientIP` returns the substring between `[` and the
last `]:` for a bracketed address; otherwise the part before the FIRST
colon; and the whole string when it has no colon. -/
theorem getClientIP_spec :
    (∀ inner rest : List Char, hasBC rest = false →
        getClientIP ('[' :: inner ++ ']' :: ':' :: rest) = inner) ∧
    (∀ host rest : List Char,
        goHasPrefix (host ++ ':' :: rest) ['['] = false → ':' ∉ host →
        getClientIP (host ++ ':' :: rest) = host) ∧
    (∀ addr : List Char, goHasPrefix addr ['['] = false → ':' ∉ addr →
        getClientIP addr = addr) := by
  refine ⟨?_, ?_, ?_⟩
  · intro inner rest h
    have hpre : goHasPrefix ('[' :: inner ++ ']' :: ':' :: rest) ['['] = true := by
      simp [goHasPrefix]
    have hidx : lastIndexBC ('[' :: inner ++ ']' :: ':' :: rest)
        = some (1 + inner.length) := by
      show lastIndexBCAux (('[' :: inner) ++ ']' :: ':' :: rest) 0 none = _
      rw [lastIndexBCAux_append ('[' :: inner) rest 0 none h]
      simp [List.length_cons]
      omega
    rw [getClientIP, if_pos hpre, hidx]
    show List.drop 1 (List.take (1 + inner.length) ('[' :: inner ++ ']' :: ':' :: rest))
      = inner
    have htake : ('[' :: inner ++ ']' :: ':' :: rest).take (1 + inner.length)
        = '[' :: inner := by
      have : ('[' :: inner ++ ']' :: ':' :: rest)
          = ('[' :: inner) ++ ']' :: ':' :: rest := by simp
      rw [this]
      have hlen : ('[' :: inner).length = 1 + inner.length := by
        simp [List.length_cons]; omega
      rw [← hlen]
      exact List.take_left ('[' :: inner) _
    rw [htake]
    rfl
  · intro host rest hpre hnc
    rw [getClientIP, if_neg (by simp [hpre]), splitAtFirst_append ':' host rest hnc]
  · intro addr hpre hnc
    rw [getClientIP, if_neg (by simp [hpre]), splitAtFirst_eq_none ':' addr hnc]

/-- C4 amended witness: a bracketed IPv6 with zone, an IPv4 with port,
and a bare host. -/
theorem getClientIP_spec_witness :
    getClientIP ("[fe80::1%eth0]:9000".toList) = "fe80::1%eth0".toList ∧
    getClientIP ("192.168.1.1:12345".toList) = "192.168.1.1".toList ∧
    getClientIP ("192.168.1.1".toList) = "192.168.1.1".toList := by
  refine ⟨?_, ?_, ?_⟩
  · have h := getClientIP_spec.1 ("fe80::1%eth0".toList) ("9000".toList) (by decide)
    have heq : ('[' :: "fe80::1%eth0".toList ++ ']' :: ':' :: "9000".toList)
        = "[fe80::1%eth0]:9000".toList := by decide
    rw [heq] at h
    exact h
  · have h := getClientIP_spec.2.1 ("192.168.1.1".toList) ("12345".toList)
      (by decide) (by decide)
    have heq : ("192.168.1.1".toList ++ ':' :: "12345".toList)
        = "192.168.1.1:12345".toList := by decide
    rw [heq] at h
    exact h
  · exact getClientIP_spec.2.2 ("192.168.1.1".toList) (by decide) (by decide)

/-! ### Health state machine (src/internal/health/status.go) -/

/-- `health.HealthState`. -/
inductive HealthState where
  | healthy
  | unhealthy
  | recovering
deriving Repr, DecidableEq

/-- The counter-relevant part of `health.IPStatus` (the `LastCheck` time
and `LastError` fields do not influence transitions and are omitted). -/
structure IPStatus where
  state : HealthState
  consecutiveFailures : Int
  consecutiveSuccesses : Int
deriving Repr, DecidableEq

/-- `health.NewIPStatus`: starts `Healthy` with zeroed counters. -/
def newIPStatus : IPStatus :=
  { state := HealthState.healthy, consecutiveFailures := 0, consecutiveSuccesses := 0 }

/-- `IPStatus.RecordSuccess(successThreshold)` (state part; the returned
changed-flag is the inequality of states). -/
def recordSuccess (successThreshold : Int) (s : IPStatus) : IPStatus :=
  let s1 := { s with consecutiveFailures := 0,
                     consecutiveSuccesses := s.consecutiveSuccesses + 1 }
  match s1.state with
  | HealthState.unhealthy =>
    { s1 with state := HealthState.recovering, consecutiveSuccesses := 1 }
  | HealthState.recovering =>
    if s1.consecutiveSuccesses ≥ successThreshold then
      { s1 with state := HealthState.healthy }
    else s1
  | HealthState.healthy => s1

/-- `IPStatus.RecordFailure(err, failureThreshold)` (state part). -/
def recordFailure (failureThreshold : Int) (s : IPStatus) : IPStatus :=
  let s1 := { s with consecutiveSuccesses := 0,
                     consecutiveFailures := s.consecutiveFailures + 1 }
  match s1.state with
  | HealthState.healthy =>
    if s1.consecutiveFailures ≥ failureThreshold then
      { s1 with state := HealthState.unhealthy }
    else s1
  | HealthState.recovering => { s1 with state := HealthState.unhealthy }
  | HealthState.unhealthy => s1

/-- C7: the transitions of `RecordSuccess`/`RecordFailure` are exactly
the three-state machine of the spec, for every starting status and
thresholds (hence along every interleaving of calls):
in `Healthy`, a failure increments `consecutive_failures`, resets
`consecutive_successes`, and moves to `Unhealthy` exactly when the new
failure count reaches `failure_threshold`; in `Unhealthy`, a success
moves to `Recovering` with `consecutive_successes = 1` while a failure
stays `Unhealthy`; in `Recovering`, a success increments
`consecutive_successes` and moves to `Healthy` exactly when it reaches
`success_threshold`, and any failure moves to `Unhealthy`. -/
theorem health_state_machine (fthr sthr : Int) (s : IPStatus) :
    (s.state = HealthState.healthy →
      recordFailure fthr s =
        { state := if s.consecutiveFailures + 1 ≥ fthr then HealthState.unhealthy
                   else HealthState.healthy,
          consecutiveFailures := s.consecutiveFailures + 1,
          consecutiveSuccesses := 0 } ∧
      recordSuccess sthr s =
        { state := HealthState.healthy,
          consecutiveFailures := 0,
          consecutiveSuccesses := s.consecutiveSuccesses + 1 }) ∧
    (s.state = HealthState.unhealthy →
      recordSuccess sthr s =
        { state := HealthState.recovering,
          consecutiveFailures := 0,
          consecutiveSuccesses := 1 } ∧
      recordFailure fthr s =
        { state := HealthState.unhealthy,
          consecutiveFailures := s.consecutiveFailures + 1,
          consecutiveSuccesses := 0 }) ∧
    (s.state = HealthState.recovering →
      recordSuccess sthr s =
        { state := if s.consecutiveSuccesses + 1 ≥ sthr then HealthState.healthy
                   else HealthState.recovering,
          consecutiveFailures := 0,
          consecutiveSuccesses := s.consecutiveSuccesses + 1 } ∧
      recordFailure fthr s =
        { state := HealthState.unhealthy,
          consecutiveFailures := s.consecutiveFailures + 1,
          consecutiveSuccesses := 0 }) := by
  refine ⟨?_, ?_, ?_⟩
  · intro hs
    constructor
    · by_cases hf : s.consecutiveFailures + 1 ≥ fthr
      · simp [recordFailure, hs, hf]
      · simp [recordFailure, hs, hf]
    · simp [recordSuccess, hs]
  · intro hs
    constructor
    · simp [recordSuccess, hs]
    · simp [recordFailure, hs]
  · intro hs
    constructor
    · by_cases hsc : s.consecutiveSuccesses + 1 ≥ sthr
      · simp [recordSuccess, hs, hsc]
      · simp [recordSuccess, hs, hsc]
    · simp [recordFailure, hs]

/-- C7 witness: applies the state machine characterization at the fresh
status with thresholds 2/2: a first failure keeps the state `Healthy`. -/
theorem health_state_machine_witness :
    newIPStatus.state = HealthState.healthy ∧
    recordFailure 2 newIPStatus =
      { state := HealthState.healthy,
        consecutiveFailures := 1, consecutiveSuccesses := 0 } := by
  have h := (health_state_machine 2 2 newIPStatus).1 rfl
  refine ⟨rfl, ?_⟩
  rw [h.1]
  decide

/-! ### Basic proxy authentication (proxy server, `Server.authenticate`)

Base64 decoding is the Go standard library, an external collaborator: it
is a parameter `decode` returning `none` on corrupt input. -/

theorem goHasPrefix_iff :
    ∀ (pre s : List Char), goHasPrefix s pre = true ↔ ∃ rest, s = pre ++ rest := by
  intro pre
  induction pre with
  | nil =>
    intro s
    constructor
    · intro _; exact ⟨s, rfl⟩
    · intro _
      match s with
      | [] => rfl
      | x :: xs => rfl
  | cons y ys ih =>
    intro s
    constructor
    · intro h
      match s with
      | [] => simp [goHasPrefix] at h
      | x :: xs =>
        simp only [goHasPrefix, Bool.and_eq_true, decide_eq_true_eq] at h
        obtain ⟨rest, hrest⟩ := (ih xs).mp h.2
        exact ⟨rest, by simp [h.1, hrest]⟩
    · rintro ⟨rest, hrest⟩
      subst hrest
      simp only [List.cons_append, goHasPrefix, Bool.and_eq_true, decide_eq_true_eq]
      exact ⟨by trivial, (ih (ys ++ rest)).mpr ⟨rest, rfl⟩⟩

/-- `config.GetAuthCredentials`: split the configured `user:pass` at the
first colon (`strings.SplitN(auth, ":", 2)`); no colon or empty string
means auth is not configured. -/
def getAuthCredentials (auth : List Char) : Option (List Char × List Char) :=
  if auth = [] then none
  else splitAtFirst ':' auth

/-- The `Basic ` scheme prefix. -/
def basicPrefix : List Char := "Basic ".toList

/-- The response written by `Server.sendProxyAuthRequired`. -/
structure AuthResponse where
  status : Nat
  proxyAuthenticateValue : String
deriving Repr, DecidableEq

/-- `Server.sendProxyAuthRequired`: a 407 carrying
`Proxy-Authenticate: Basic realm="Proxy"`. -/
def sendProxyAuthRequired : AuthResponse :=
  { status := 407, proxyAuthenticateValue := "Basic realm=\"Proxy\"" }

/-- The header-checking part of `Server.authenticate`, once the
configured credentials are in hand. -/
def authenticateWithCreds (username password : List Char)
    (decode : List Char → Option (List Char)) (header : List Char) :
    Bool × Option AuthResponse :=
  if header = [] then (false, some sendProxyAuthRequired)
  else if goHasPrefix header basicPrefix = false then
    (false, some sendProxyAuthRequired)
  else
    match decode (header.drop basicPrefix.length) with
    | none => (false, some sendProxyAuthRequired)
    | some decoded =>
      match splitAtFirst ':' decoded with
      | none => (false, some sendProxyAuthRequired)
      | some (reqUser, reqPass) =>
        if reqUser = username ∧ reqPass = password then (true, none)
        else (false, some sendProxyAuthRequired)

/-- `Server.authenticate`: the returned flag plus the response written on
the failure paths.  `header` is `Proxy-Authorization` (empty = missing);
the constant-time comparisons decide exactly byte equality. -/
def authenticate (cfgAuth : List Char) (decode : List Char → Option (List Char))
    (header : List Char) : Bool × Option AuthResponse :=
  if cfgAuth = [] then (true, none)
  else
    match getAuthCredentials cfgAuth with
    | none => (true, none)
    | some (username, password) =>
      authenticateWithCreds username password decode header

theorem authenticate_dichotomy (cfgAuth : List Char)
    (decode : List Char → Option (List Char)) (header : List Char) :
    authenticate cfgAuth decode header = (true, none) ∨
    authenticate cfgAuth decode header = (false, some sendProxyAuthRequired) := by
  unfold authenticate authenticateWithCreds
  repeat' first
    | (left; rfl)
    | (right; rfl)
    | split

theorem authenticateWithCreds_true_iff (u p : List Char) (hnu : ':' ∉ u)
    (decode : List Char → Option (List Char)) (header : List Char) :
    authenticateWithCreds u p decode header = (true, none) ↔
      ∃ payload, header = basicPrefix ++ payload ∧
        decode payload = some (u ++ ':' :: p) := by
  constructor
  · intro h
    unfold authenticateWithCreds at h
    by_cases hh : header = []
    · rw [if_pos hh] at h
      simp at h
    · rw [if_neg hh] at h
      by_cases hp : goHasPrefix header basicPrefix = false
      · rw [if_pos hp] at h
        simp at h
      · rw [if_neg hp] at h
        have hp2 : goHasPrefix header basicPrefix = true := by
          cases hgp : goHasPrefix header basicPrefix
          · exact absurd hgp hp
          · rfl
        obtain ⟨payload0, hpl0⟩ := (goHasPrefix_iff basicPrefix header).mp hp2
        have hdrop : header.drop basicPrefix.length = payload0 := by
          rw [hpl0]
          exact List.drop_left basicPrefix payload0
        rw [hdrop] at h
        refine ⟨payload0, hpl0, ?_⟩
        match hd : decode payload0 with
        | none =>
          rw [hd] at h
          simp at h
        | some decoded =>
          rw [hd] at h
          simp only [] at h
          match hs : splitAtFirst ':' decoded with
          | none =>
            rw [hs] at h
            simp at h
          | some (ru, rp) =>
            rw [hs] at h
            simp only [] at h
            by_cases hm : ru = u ∧ rp = p
            · obtain ⟨hdd, -⟩ := splitAtFirst_some ':' decoded ru rp hs
              rw [hdd, hm.1, hm.2]
            · rw [if_neg hm] at h
              simp at h
  · rintro ⟨payload, rfl, hdec⟩
    have h1 : basicPrefix ++ payload ≠ [] := by simp [basicPrefix]
    have h2 : goHasPrefix (basicPrefix ++ payload) basicPrefix = true :=
      (goHasPrefix_iff _ _).mpr ⟨payload, rfl⟩
    unfold authenticateWithCreds
    rw [if_neg h1, if_neg (by simp [h2]), List.drop_left]
    simp [hdec, splitAtFirst_append ':' u p hnu]

/-- C9: with credentials `u:p` configured, `authenticate` succeeds (no
response written) exactly when the header is `Basic ` followed by a
payload that decodes to `u:p`; in every other case — missing header,
wrong scheme, corrupt base64, colon-free payload, or mismatching
credentials — it returns `false` and writes the 407 carrying
`Proxy-Authenticate: Basic realm="Proxy"`.  The password `p` may itself
contain colons: only the first colon of the decoded payload separates. -/
theorem authenticate_spec (cfgAuth u p : List Char)
    (hcred : getAuthCredentials cfgAuth = some (u, p))
    (decode : List Char → Option (List Char)) (header : List Char) :
    (authenticate cfgAuth decode header = (true, none) ↔
      ∃ payload, header = basicPrefix ++ payload ∧
        decode payload = some (u ++ ':' :: p)) ∧
    (authenticate cfgAuth decode header ≠ (true, none) →
      authenticate cfgAuth decode header = (false, some sendProxyAuthRequired)) ∧
    sendProxyAuthRequired.status = 407 ∧
    sendProxyAuthRequired.proxyAuthenticateValue = "Basic realm=\"Proxy\"" := by
  have hne : cfgAuth ≠ [] := by
    intro h
    rw [h] at hcred
    simp [getAuthCredentials] at hcred
  have hsplit : splitAtFirst ':' cfgAuth = some (u, p) := by
    rw [getAuthCredentials, if_neg hne] at hcred
    exact hcred
  have hnu : ':' ∉ u := (splitAtFirst_some ':' cfgAuth u p hsplit).2
  refine ⟨?_, ?_, rfl, rfl⟩
  · have hred : authenticate cfgAuth decode header
        = authenticateWithCreds u p decode header := by
      rw [authenticate, if_neg hne, hcred]
    rw [hred]
    exact authenticateWithCreds_true_iff u p hnu decode header
  · intro hfail
    exact (authenticate_dichotomy cfgAuth decode header).resolve_left hfail

/-- C9 witness: credentials `user:pa:ss` (password containing a colon),
a decoder that recognises one payload, and a matching header admit;
the theorem is applied at these concrete inputs. -/
theorem authenticate_spec_witness :
    authenticate ("user:pa:ss".toList)
        (fun payload => if payload = "WFla".toList
          then some ("user:pa:ss".toList) else none)
        ("Basic WFla".toList)
      = (true, none) := by
  have h := (authenticate_spec ("user:pa:ss".toList) ("user".toList) ("pa:ss".toList)
    (by decide)
    (fun payload => if payload = "WFla".toList
      then some ("user:pa:ss".toList) else none)
    ("Basic WFla".toList)).1
  apply h.mpr
  refine ⟨"WFla".toList, by decide, by decide⟩

/-! ### History store (src balancer `history.go`)

The host → history map becomes an association list; entry lists keep
insertion order (oldest first), as the Go slices do. -/

/-- The host map `History.hosts`. -/
abbrev Hosts := List (String × List BalEntry)

/-- Reading `h.hosts[host]` with existence. -/
def findH (hs : Hosts) (host : String) : Option (List BalEntry) :=
  match hs.find? (fun p => p.1 = host) with
  | some p => some p.2
  | none => none

/-- Writing `h.hosts[host] = es`. -/
def setH : Hosts → String → List BalEntry → Hosts
  | [], host, es => [(host, es)]
  | p :: rest, host, es =>
    if p.1 = host then (host, es) :: rest else p :: setH rest host es

/-- `delete(h.hosts, host)`. -/
def removeH : Hosts → String → Hosts
  | [], _ => []
  | p :: rest, host => if p.1 = host then rest else p :: removeH rest host

/-- All stored entries, in map order. -/
def allEntriesH (hs : Hosts) : List BalEntry :=
  (hs.map Prod.snd).flatten

/-- The state of `balancer.History`. -/
structure HistState where
  hosts : Hosts
  maxTotalEntries : Int
  totalEntries : Int
deriving Repr, DecidableEq

/-- `NewHistory(WithMaxTotalEntries(cap))`. -/
def newHistory (cap : Int) : HistState :=
  { hosts := [], maxTotalEntries := cap, totalEntries := 0 }

/-- The number of actually stored entries. -/
def entryCount (st : HistState) : Nat :=
  (allEntriesH st.hosts).length

/-- The scan loop of `evictOldestLocked`: find the host whose first
(oldest) entry has the smallest timestamp; Go zero values `""`/`0` seed
the accumulators and `first` guards the seed. -/
def scanOldestAux : Hosts → String → Int → Bool → String × Int
  | [], oh, ot, _ => (oh, ot)
  | (host, es) :: rest, oh, ot, first =>
    match es with
    | [] => scanOldestAux rest oh ot first
    | e :: _ =>
      if first ∨ e.ts < ot then scanOldestAux rest host e.ts false
      else scanOldestAux rest oh ot first

/-- `History.evictOldestLocked`: pick the oldest host (skipped entirely
when the scan yields the empty host name), drop its first entry and
decrement the entry counter, and delete the host if it became empty. -/
def evictOldestLocked (st : HistState) : HistState :=
  let oh := (scanOldestAux st.hosts "" 0 true).1
  if oh ≠ "" then
    match findH st.hosts oh with
    | some es =>
      match es with
      | [] => { st with hosts := removeH st.hosts oh }
      | _ :: tail =>
        if tail = [] then
          { st with hosts := removeH st.hosts oh,
                    totalEntries := st.totalEntries - 1 }
        else
          { st with hosts := setH st.hosts oh tail,
                    totalEntries := st.totalEntries - 1 }
    | none => st
  else st

/-- `GetOrCreate(host)` followed by `HostHistory.Add(ip)`: append a new
entry with the current instant. -/
def histAdd (st : HistState) (host ip : String) (now : Int) : HistState :=
  let es := (findH st.hosts host).getD []
  { st with hosts := setH st.hosts host (es ++ [{ ip := ip, ts := now }]) }

/-- `History.Record(host, ip)` at instant `now`: consult the cap, evict
when the tracked count has reached it, bump the tracked count, then
append. -/
def record (st : HistState) (host ip : String) (now : Int) : HistState :=
  if st.maxTotalEntries > 0 then
    if st.totalEntries ≥ st.maxTotalEntries then
      histAdd { evictOldestLocked st with
        totalEntries := (evictOldestLocked st).totalEntries + 1 } host ip now
    else
      histAdd { st with totalEntries := st.totalEntries + 1 } host ip now
  else
    histAdd st host ip now

/-- `HostHistory.Cleanup(window)` at instant `now`: keep entries with
`Timestamp.After(now - window)`, i.e. strictly newer than the cutoff. -/
def hostCleanup (window now : Int) (es : List BalEntry) : List BalEntry :=
  es.filter (fun e => e.ts > now - window)

/-- `History.Cleanup(window)` at instant `now`: purge every host, then
drop hosts whose history became empty.  (`h.totalEntries` is not
updated, as in the Go code.) -/
def cleanup (st : HistState) (window now : Int) : HistState :=
  let purged := st.hosts.map (fun p => (p.1, hostCleanup window now p.2))
  { st with hosts := purged.filter (fun p => !p.2.isEmpty) }

theorem findH_none_of_not_mem (hs : Hosts) (host : String)
    (h : host ∉ hs.map Prod.fst) : findH hs host = none := by
  induction hs with
  | nil => rfl
  | cons p rest ih =>
    have h1 : ¬p.1 = host := by
      intro hcontra
      exact h (by simp [hcontra])
    have h2 : host ∉ rest.map Prod.fst := by
      intro hcontra
      exact h (by simp [hcontra])
    simpa [findH, List.find?, h1] using ih h2

/-- C6 counterexample: an entry whose timestamp is exactly `now − window`
is REMOVED by `Cleanup` (the Go filter keeps `Timestamp.After(cutoff)`,
which is strict), while the claim says it is kept. -/
theorem cleanup_boundary_counterexample :
    (cleanup { hosts := [("h", [{ ip := "10.0.0.1", ts := 5 }])],
               maxTotalEntries := 0, totalEntries := 1 } 5 10).hosts = [] ∧
    (5 : Int) = 10 - 5 := by
  constructor
  · rfl
  · rfl

/-- C6 amended: `Cleanup(window)` at instant `now` removes exactly the
entries with timestamp `≤ now − window` (an entry exactly at the cutoff
is removed), removes exactly the hosts whose history is empty after the
purge, and leaves the surviving entries unchanged and in order; the two
counters are untouched. -/
theorem keys_cleanup_subset (window now : Int) (hs : Hosts) (k : String)
    (hk : k ∈ ((hs.map (fun p => (p.1, hostCleanup window now p.2))).filter
        (fun p => !p.2.isEmpty)).map Prod.fst) : k ∈ hs.map Prod.fst := by
  obtain ⟨q, hq, hq1⟩ := List.mem_map.mp hk
  have hq2 := List.mem_of_mem_filter hq
  obtain ⟨r, hr, hr1⟩ := List.mem_map.mp hq2
  rw [← hq1, ← hr1]
  simpa using List.mem_map_of_mem Prod.fst hr

theorem findH_cleanup (window now : Int) :
    ∀ (hs : Hosts), (hs.map Prod.fst).Nodup → ∀ host,
      findH ((hs.map (fun p => (p.1, hostCleanup window now p.2))).filter
          (fun p => !p.2.isEmpty)) host =
        (match findH hs host with
         | none => none
         | some es =>
           if (hostCleanup window now es).isEmpty then none
           else some (hostCleanup window now es)) := by
  intro hs
  induction hs with
  | nil => intro _ host; rfl
  | cons p rest ih =>
    intro hnd host
    rw [List.map_cons, List.nodup_cons] at hnd
    obtain ⟨hnd1, hnd2⟩ := hnd
    rw [List.map_cons, List.filter_cons]
    by_cases hkeep : ((hostCleanup window now p.2).isEmpty : Bool) = true
    · rw [if_neg (by simp [hkeep])]
      rw [ih hnd2 host]
      by_cases hph : p.1 = host
      · subst hph
        rw [findH_none_of_not_mem rest p.1 hnd1]
        have hfind : findH (p :: rest) p.1 = some p.2 := by
          simp [findH, List.find?]
        rw [hfind]
        simp [hkeep]
      · have hskip : findH (p :: rest) host = findH rest host := by
          simp [findH, List.find?, hph]
        rw [hskip]
    · rw [if_pos (by simp [hkeep])]
      by_cases hph : p.1 = host
      · subst hph
        have h1 : findH ((p.1, hostCleanup window now p.2)
            :: (rest.map (fun p => (p.1, hostCleanup window now p.2))).filter
                (fun p => !p.2.isEmpty)) p.1
            = some (hostCleanup window now p.2) := by
          simp [findH, List.find?]
        rw [h1]
        have hfind : findH (p :: rest) p.1 = some p.2 := by
          simp [findH, List.find?]
        rw [hfind]
        simp [hkeep]
      · have h1 : findH ((p.1, hostCleanup window now p.2)
            :: (rest.map (fun p => (p.1, hostCleanup window now p.2))).filter
                (fun p => !p.2.isEmpty)) host
            = findH ((rest.map (fun p => (p.1, hostCleanup window now p.2))).filter
                (fun p => !p.2.isEmpty)) host := by
          simp [findH, List.find?, hph]
        rw [h1, ih hnd2 host]
        have hskip : findH (p :: rest) host = findH rest host := by
          simp [findH, List.find?, hph]
        rw [hskip]

/-- C6 amended: `Cleanup(window)` at instant `now` removes exactly the
entries with timestamp `≤ now − window` (an entry exactly at the cutoff
is removed, because the Go filter keeps only `Timestamp.After(cutoff)`),
removes exactly the hosts whose history is empty after the purge, and
leaves the surviving entries unchanged and in order; the counters are
untouched. -/
theorem cleanup_exact (st : HistState) (window now : Int)
    (hnd : (st.hosts.map Prod.fst).Nodup) :
    (cleanup st window now).maxTotalEntries = st.maxTotalEntries ∧
    (cleanup st window now).totalEntries = st.totalEntries ∧
    ∀ host, findH (cleanup st window now).hosts host =
      (match findH st.hosts host with
       | none => none
       | some es =>
         if (es.filter (fun e => e.ts > now - window)).isEmpty then none
         else some (es.filter (fun e => e.ts > now - window))) := by
  refine ⟨rfl, rfl, ?_⟩
  intro host
  exact findH_cleanup window now st.hosts hnd host

/-- C6 amended witness: one host with entries on both sides of the
cutoff: the boundary entry (timestamp `= now − window`) is removed, the
strictly newer one survives. -/
theorem cleanup_exact_witness :
    ((([("h", [BalEntry.mk "a" 5, BalEntry.mk "b" 6])] : Hosts).map
        Prod.fst).Nodup) ∧
    findH (cleanup (HistState.mk [("h", [BalEntry.mk "a" 5, BalEntry.mk "b" 6])] 0 2)
        5 10).hosts "h"
      = some [BalEntry.mk "b" 6] := by
  constructor
  · decide
  · have h := (cleanup_exact
      (HistState.mk [("h", [BalEntry.mk "a" 5, BalEntry.mk "b" 6])] 0 2)
      5 10 (by decide)).2.2 "h"
    rw [h]
    decide

/-! ### History bounds: association-list and counting lemmas -/

/-- Entry count of a host map. -/
def entryCountH (hs : Hosts) : Nat :=
  (allEntriesH hs).length

theorem allEntriesH_cons (p : String × List BalEntry) (rest : Hosts) :
    allEntriesH (p :: rest) = p.2 ++ allEntriesH rest := by
  simp [allEntriesH]

theorem entryCountH_cons (p : String × List BalEntry) (rest : Hosts) :
    entryCountH (p :: rest) = p.2.length + entryCountH rest := by
  simp [entryCountH, allEntriesH_cons]

theorem entryCount_eq (st : HistState) : entryCount st = entryCountH st.hosts := rfl

theorem mem_allEntriesH {e : BalEntry} {hs : Hosts} :
    e ∈ allEntriesH hs ↔ ∃ p ∈ hs, e ∈ p.2 := by
  simp only [allEntriesH, List.mem_flatten, List.mem_map]
  constructor
  · rintro ⟨l, ⟨p, hp, rfl⟩, he⟩
    exact ⟨p, hp, he⟩
  · rintro ⟨p, hp, he⟩
    exact ⟨p.2, ⟨p, hp, rfl⟩, he⟩

theorem setH_forall {Q : String × List BalEntry → Prop} :
    ∀ (hs : Hosts) (host : String) (es : List BalEntry),
      (∀ q ∈ hs, Q q) → Q (host, es) → ∀ q ∈ setH hs host es, Q q := by
  intro hs
  induction hs with
  | nil =>
    intro host es _ hnew q hq
    simp [setH] at hq
    subst hq; exact hnew
  | cons p rest ih =>
    intro host es hall hnew q hq
    by_cases hp : p.1 = host
    · simp only [setH, hp, if_true] at hq
      rcases List.mem_cons.mp hq with h | h
      · subst h; exact hnew
      · exact hall q (List.mem_cons_of_mem p h)
    · simp only [setH, hp, if_false] at hq
      rcases List.mem_cons.mp hq with h | h
      · subst h; exact hall _ (List.mem_cons_self _ _)
      · exact ih host es (fun r hr => hall r (List.mem_cons_of_mem p hr)) hnew q h

theorem findH_setH_self :
    ∀ (hs : Hosts) (host : String) (es : List BalEntry),
      findH (setH hs host es) host = some es := by
  intro hs
  induction hs with
  | nil => intro host es; simp [setH, findH, List.find?]
  | cons p rest ih =>
    intro host es
    by_cases hp : p.1 = host
    · simp [setH, hp, findH, List.find?]
    · simpa [setH, hp, findH, List.find?] using ih host es

theorem findH_setH_ne :
    ∀ (hs : Hosts) (host h2 : String) (es : List BalEntry), h2 ≠ host →
      findH (setH hs host es) h2 = findH hs h2 := by
  intro hs
  induction hs with
  | nil => intro host h2 es hne; simp [setH, findH, List.find?, Ne.symm hne]
  | cons p rest ih =>
    intro host h2 es hne
    obtain ⟨k, w⟩ := p
    by_cases hp : k = host
    · subst hp
      simp [setH, findH, List.find?, Ne.symm hne]
    · by_cases hp2 : k = h2
      · subst hp2
        simp [setH, hp, findH, List.find?]
      · simpa [setH, hp, findH, List.find?, hp2] using ih host h2 es hne

theorem keys_setH :
    ∀ (hs : Hosts) (host : String) (es : List BalEntry),
      (setH hs host es).map Prod.fst =
        (if host ∈ hs.map Prod.fst then hs.map Prod.fst
         else hs.map Prod.fst ++ [host]) := by
  intro hs
  induction hs with
  | nil => intro host es; simp [setH]
  | cons p rest ih =>
    intro host es
    by_cases hp : p.1 = host
    · simp [setH, hp]
    · rw [List.map_cons]
      have hmem : (host ∈ p.1 :: rest.map Prod.fst) ↔ (host ∈ rest.map Prod.fst) := by
        simp [Ne.symm hp]
      by_cases hm : host ∈ rest.map Prod.fst
      · simp only [setH, hp, if_false, List.map_cons, ih host es, hm, if_true]
        rw [if_pos (hmem.mpr hm)]
      · simp only [setH, hp, if_false, List.map_cons, ih host es, hm, if_false]
        rw [if_neg (fun hc => hm (hmem.mp hc))]
        simp

theorem nodup_keys_setH (hs : Hosts) (host : String) (es : List BalEntry)
    (hnd : (hs.map Prod.fst).Nodup) : ((setH hs host es).map Prod.fst).Nodup := by
  rw [keys_setH]
  by_cases hm : host ∈ hs.map Prod.fst
  · rw [if_pos hm]; exact hnd
  · rw [if_neg hm, List.nodup_append]
    refine ⟨hnd, List.nodup_singleton host, ?_⟩
    intro a ha hb
    simp only [List.mem_singleton] at hb
    subst hb
    exact hm ha

theorem countH_setH :
    ∀ (hs : Hosts) (host : String) (es : List BalEntry),
      entryCountH (setH hs host es) + ((findH hs host).getD []).length
        = entryCountH hs + es.length := by
  intro hs
  induction hs with
  | nil => intro host es; simp [setH, findH, List.find?, entryCountH, allEntriesH]
  | cons p rest ih =>
    intro host es
    obtain ⟨k, w⟩ := p
    by_cases hp : k = host
    · subst hp
      simp only [setH, if_true, entryCountH_cons]
      simp [findH, List.find?, entryCountH_cons]
      omega
    · have hfind : findH ((k, w) :: rest) host = findH rest host := by
        simp [findH, List.find?, hp]
      simp only [setH, hp, if_false, entryCountH_cons, hfind]
      have := ih host es
      omega

theorem mem_removeH :
    ∀ (hs : Hosts) (host : String) (q : String × List BalEntry),
      q ∈ removeH hs host → q ∈ hs := by
  intro hs
  induction hs with
  | nil => intro host q hq; simp [removeH] at hq
  | cons p rest ih =>
    intro host q hq
    by_cases hp : p.1 = host
    · simp only [removeH, hp, if_true] at hq
      exact List.mem_cons_of_mem p hq
    · simp only [removeH, hp, if_false] at hq
      rcases List.mem_cons.mp hq with h | h
      · subst h; exact List.mem_cons_self _ _
      · exact List.mem_cons_of_mem p (ih host q h)

theorem keys_removeH_sublist :
    ∀ (hs : Hosts) (host : String),
      ((removeH hs host).map Prod.fst).Sublist (hs.map Prod.fst) := by
  intro hs
  induction hs with
  | nil => intro host; simp [removeH]
  | cons p rest ih =>
    intro host
    by_cases hp : p.1 = host
    · simp only [removeH, hp, if_true, List.map_cons]
      exact List.sublist_cons_self _ _
    · simp only [removeH, hp, if_false, List.map_cons]
      exact List.Sublist.cons₂ p.1 (ih host)

theorem findH_removeH_ne :
    ∀ (hs : Hosts) (host h2 : String), h2 ≠ host →
      findH (removeH hs host) h2 = findH hs h2 := by
  intro hs
  induction hs with
  | nil => intro host h2 _; rfl
  | cons p rest ih =>
    intro host h2 hne
    obtain ⟨k, w⟩ := p
    by_cases hp : k = host
    · subst hp
      simp [removeH, findH, List.find?, Ne.symm hne]
    · by_cases hp2 : k = h2
      · subst hp2
        simp [removeH, hp, findH, List.find?]
      · simpa [removeH, hp, findH, List.find?, hp2] using ih host h2 hne

theorem countH_removeH :
    ∀ (hs : Hosts) (host : String),
      entryCountH (removeH hs host) + ((findH hs host).getD []).length
        = entryCountH hs := by
  intro hs
  induction hs with
  | nil => intro host; simp [removeH, findH, List.find?, entryCountH, allEntriesH]
  | cons p rest ih =>
    intro host
    obtain ⟨k, w⟩ := p
    by_cases hp : k = host
    · subst hp
      simp only [removeH, if_true, entryCountH_cons]
      simp [findH, List.find?]
      omega
    · have hfind : findH ((k, w) :: rest) host = findH rest host := by
        simp [findH, List.find?, hp]
      simp only [removeH, hp, if_false, entryCountH_cons, hfind]
      have := ih host
      omega

theorem findH_of_mem_nodup :
    ∀ (hs : Hosts), (hs.map Prod.fst).Nodup →
      ∀ (h : String) (es : List BalEntry), (h, es) ∈ hs → findH hs h = some es := by
  intro hs
  induction hs with
  | nil => intro _ h es hmem; simp at hmem
  | cons p rest ih =>
    intro hnd h es hmem
    rw [List.map_cons, List.nodup_cons] at hnd
    rcases List.mem_cons.mp hmem with hh | hh
    · rw [← hh]
      simp [findH, List.find?]
    · have hne : ¬p.1 = h := by
        intro hc
        apply hnd.1
        rw [hc]
        exact List.mem_map_of_mem Prod.fst hh
      have := ih hnd.2 h es hh
      simpa [findH, List.find?, hne] using this

theorem findH_mem :
    ∀ (hs : Hosts) (h : String) (es : List BalEntry),
      findH hs h = some es → (h, es) ∈ hs := by
  intro hs
  induction hs with
  | nil => intro h es hf; simp [findH, List.find?] at hf
  | cons p rest ih =>
    intro h es hf
    obtain ⟨k, w⟩ := p
    by_cases hp : k = h
    · subst hp
      simp only [findH, List.find?] at hf
      simp at hf
      simp [← hf]
    · have hrest : findH rest h = some es := by
        simpa [findH, List.find?, hp] using hf
      exact List.mem_cons_of_mem (k, w) (ih h es hrest)

/-! ### The eviction scan -/

/-- The timestamp of a host's first (oldest) entry; Go zero for an empty
history. -/
def headTs (p : String × List BalEntry) : Int :=
  match p.2 with
  | [] => 0
  | e :: _ => e.ts

theorem scanOldestAux_false :
    ∀ (hs : Hosts) (oh : String) (ot : Int), (∀ p ∈ hs, p.2 ≠ []) →
      (scanOldestAux hs oh ot false).2 ≤ ot ∧
      (∀ p ∈ hs, (scanOldestAux hs oh ot false).2 ≤ headTs p) ∧
      (scanOldestAux hs oh ot false = (oh, ot) ∨
        ∃ p ∈ hs, scanOldestAux hs oh ot false = (p.1, headTs p)) := by
  intro hs
  induction hs with
  | nil =>
    intro oh ot _
    exact ⟨le_refl ot, by simp, Or.inl rfl⟩
  | cons p rest ih =>
    intro oh ot hall
    obtain ⟨host, es⟩ := p
    match hes : es with
    | [] => exact absurd rfl (hall (host, []) (List.mem_cons_self _ _))
    | e :: tl =>
      by_cases hlt : e.ts < ot
      · have hstep : scanOldestAux ((host, e :: tl) :: rest) oh ot false
            = scanOldestAux rest host e.ts false := by
          simp [scanOldestAux, hlt]
        obtain ⟨ih1, ih2, ih3⟩ := ih host e.ts
          (fun q hq => hall q (List.mem_cons_of_mem _ hq))
        rw [hstep]
        refine ⟨le_of_lt (lt_of_le_of_lt ih1 hlt), ?_, ?_⟩
        · intro q hq
          rcases List.mem_cons.mp hq with h | h
          · rw [h]
            simpa [headTs] using ih1
          · exact ih2 q h
        · rcases ih3 with h | ⟨q, hq, h⟩
          · right
            exact ⟨(host, e :: tl), List.mem_cons_self _ _, by simpa [headTs] using h⟩
          · right
            exact ⟨q, List.mem_cons_of_mem _ hq, h⟩
      · have hstep : scanOldestAux ((host, e :: tl) :: rest) oh ot false
            = scanOldestAux rest oh ot false := by
          simp [scanOldestAux, hlt]
        obtain ⟨ih1, ih2, ih3⟩ := ih oh ot
          (fun q hq => hall q (List.mem_cons_of_mem _ hq))
        rw [hstep]
        refine ⟨ih1, ?_, ?_⟩
        · intro q hq
          rcases List.mem_cons.mp hq with h | h
          · rw [h]
            simp only [headTs]
            omega
          · exact ih2 q h
        · rcases ih3 with h | ⟨q, hq, h⟩
          · exact Or.inl h
          · exact Or.inr ⟨q, List.mem_cons_of_mem _ hq, h⟩

theorem scanOldestAux_true (hs : Hosts) (oh0 : String) (ot0 : Int)
    (hall : ∀ p ∈ hs, p.2 ≠ []) (hne : hs ≠ []) :
    ∃ p ∈ hs, scanOldestAux hs oh0 ot0 true = (p.1, headTs p) ∧
      ∀ q ∈ hs, headTs p ≤ headTs q := by
  match hs, hne with
  | (host, es) :: rest, _ =>
    match hes : es with
    | [] => exact absurd rfl (hall (host, []) (List.mem_cons_self _ _))
    | e :: tl =>
      have hstep : scanOldestAux ((host, e :: tl) :: rest) oh0 ot0 true
          = scanOldestAux rest host e.ts false := by
        simp [scanOldestAux]
      obtain ⟨ih1, ih2, ih3⟩ := scanOldestAux_false rest host e.ts
        (fun q hq => hall q (List.mem_cons_of_mem _ hq))
      rcases ih3 with h | ⟨q, hq, h⟩
      · refine ⟨(host, e :: tl), List.mem_cons_self _ _, by simpa [headTs, hstep] using h, ?_⟩
        intro q hq
        rcases List.mem_cons.mp hq with hh | hh
        · rw [hh]
        · have hle := ih2 q hh
          have h2 : (scanOldestAux rest host e.ts false).2 = e.ts := by rw [h]
          have hL : headTs (host, e :: tl) = e.ts := rfl
          rw [hL]
          omega
      · refine ⟨q, List.mem_cons_of_mem _ hq, by rw [hstep, h], ?_⟩
        intro r hr
        have hq2 : (scanOldestAux rest host e.ts false).2 = headTs q := by rw [h]
        rcases List.mem_cons.mp hr with hh | hh
        · rw [hh]
          have hL : headTs (host, e :: tl) = e.ts := rfl
          rw [hL]
          omega
        · have := ih2 r hh
          omega

/-- Preconditions under which the eviction scan is meaningful: no empty
host name, no empty history, per-host entries oldest-first, unique host
names. -/
def evictPre (st : HistState) : Prop :=
  (∀ p ∈ st.hosts, p.1 ≠ "" ∧ p.2 ≠ [] ∧
    p.2.Pairwise (fun a b => a.ts ≤ b.ts)) ∧
  (st.hosts.map Prod.fst).Nodup

theorem evictOldest_spec (st : HistState) (hpre : evictPre st)
    (hne : st.hosts ≠ []) :
    ∃ h e tail, findH st.hosts h = some (e :: tail) ∧
      (∀ e2 ∈ allEntriesH st.hosts, e.ts ≤ e2.ts) ∧
      (evictOldestLocked st).hosts
        = (if tail = [] then removeH st.hosts h else setH st.hosts h tail) ∧
      (evictOldestLocked st).totalEntries = st.totalEntries - 1 ∧
      (evictOldestLocked st).maxTotalEntries = st.maxTotalEntries := by
  obtain ⟨hall, hnd⟩ := hpre
  obtain ⟨p, hp, hscan, hmin⟩ := scanOldestAux_true st.hosts "" 0
    (fun q hq => (hall q hq).2.1) hne
  obtain ⟨hname, hnonempty, -⟩ := hall p hp
  match hes : p.2 with
  | [] => exact absurd hes hnonempty
  | e :: tail =>
    have hfind : findH st.hosts p.1 = some (e :: tail) := by
      have := findH_of_mem_nodup st.hosts hnd p.1 p.2 (by simpa using hp)
      rwa [hes] at this
    refine ⟨p.1, e, tail, hfind, ?_, ?_, ?_, ?_⟩
    · intro e2 he2
      obtain ⟨q, hq, he2q⟩ := mem_allEntriesH.mp he2
      have hq1 := hmin q hq
      have hsorted := (hall q hq).2.2
      have hqne := (hall q hq).2.1
      match hqes : q.2 with
      | [] => exact absurd hqes hqne
      | eq :: tlq =>
        rw [hqes] at he2q hsorted
        have hhead : headTs q = eq.ts := by simp [headTs, hqes]
        have hheadp : headTs p = e.ts := by simp [headTs, hes]
        rcases List.mem_cons.mp he2q with hh | hh
        · subst hh
          omega
        · have : eq.ts ≤ e2.ts := by
            rw [List.pairwise_cons] at hsorted
            exact hsorted.1 e2 hh
          omega
    · show (evictOldestLocked st).hosts = _
      rw [evictOldestLocked]
      simp only [hscan]
      rw [if_pos hname, hfind]
      by_cases ht : tail = []
      · subst ht
        simp
      · simp [ht]
    · rw [evictOldestLocked]
      simp only [hscan]
      rw [if_pos hname, hfind]
      by_cases ht : tail = []
      · subst ht
        simp
      · simp [ht]
    · rw [evictOldestLocked]
      simp only [hscan]
      rw [if_pos hname, hfind]
      by_cases ht : tail = []
      · subst ht
        simp
      · simp [ht]

/-! ### Invariant preservation for `Record` and `Cleanup` -/

/-- All stored timestamps are at most `b` (the clock has not passed `b`). -/
def entriesLE (hs : Hosts) (b : Int) : Prop :=
  ∀ e ∈ allEntriesH hs, e.ts ≤ b

theorem histAdd_hosts (st : HistState) (host ip : String) (now : Int) :
    (histAdd st host ip now).hosts
      = setH st.hosts host (((findH st.hosts host).getD [])
          ++ [{ ip := ip, ts := now }]) := rfl

theorem histAdd_count (st : HistState) (host ip : String) (now : Int) :
    entryCountH (histAdd st host ip now).hosts = entryCountH st.hosts + 1 := by
  rw [histAdd_hosts]
  have h := countH_setH st.hosts host
    (((findH st.hosts host).getD []) ++ [{ ip := ip, ts := now }])
  rw [List.length_append] at h
  simp only [List.length_singleton] at h
  omega

theorem histAdd_pre (st : HistState) (host ip : String) (now b : Int)
    (hpre : evictPre st) (hhost : host ≠ "") (hle : entriesLE st.hosts b)
    (hb : b ≤ now) :
    evictPre (histAdd st host ip now) ∧
    entriesLE (histAdd st host ip now).hosts now := by
  obtain ⟨hall, hnd⟩ := hpre
  have hes0 : ∀ e ∈ (findH st.hosts host).getD [], e.ts ≤ now := by
    intro e he
    match hf : findH st.hosts host with
    | none => rw [hf] at he; simp at he
    | some es0 =>
      rw [hf] at he
      simp only [Option.getD_some] at he
      have hmem := findH_mem st.hosts host es0 hf
      have hin : e ∈ allEntriesH st.hosts := mem_allEntriesH.mpr ⟨(host, es0), hmem, he⟩
      exact le_trans (hle e hin) hb
  have hsort0 : ((findH st.hosts host).getD []).Pairwise
      (fun a b => a.ts ≤ b.ts) := by
    match hf : findH st.hosts host with
    | none => simp
    | some es0 =>
      have hmem := findH_mem st.hosts host es0 hf
      simpa using (hall (host, es0) hmem).2.2
  have hnewQ : (∀ q ∈ (histAdd st host ip now).hosts,
      q.1 ≠ "" ∧ q.2 ≠ [] ∧ q.2.Pairwise (fun a b => a.ts ≤ b.ts)) := by
    rw [histAdd_hosts]
    apply setH_forall st.hosts host _ hall
    refine ⟨hhost, by simp, ?_⟩
    rw [List.pairwise_append]
    refine ⟨hsort0, by simp, ?_⟩
    intro x hx y hy
    simp only [List.mem_singleton] at hy
    subst hy
    exact hes0 x hx
  refine ⟨⟨hnewQ, ?_⟩, ?_⟩
  · rw [histAdd_hosts]
    exact nodup_keys_setH st.hosts host _ hnd
  · intro e he
    obtain ⟨q, hq, heq⟩ := mem_allEntriesH.mp he
    rw [histAdd_hosts] at hq
    have hQ : ∀ r ∈ setH st.hosts host
        (((findH st.hosts host).getD []) ++ [{ ip := ip, ts := now }]),
        ∀ e2 ∈ r.2, e2.ts ≤ now := by
      refine @setH_forall (fun q => ∀ e2 ∈ q.2, e2.ts ≤ now) st.hosts host _ ?_ ?_
      · intro r hr e2 he2
        have hin : e2 ∈ allEntriesH st.hosts := mem_allEntriesH.mpr ⟨r, hr, he2⟩
        exact le_trans (hle e2 hin) hb
      · intro e2 he2
        rcases List.mem_append.mp he2 with h | h
        · exact hes0 e2 h
        · simp only [List.mem_singleton] at h
          subst h
          exact le_refl now
    exact hQ q hq e heq

theorem countH_cleanup_le (window now : Int) :
    ∀ (hs : Hosts),
      entryCountH ((hs.map (fun p => (p.1, hostCleanup window now p.2))).filter
        (fun p => !p.2.isEmpty)) ≤ entryCountH hs := by
  intro hs
  induction hs with
  | nil => simp [entryCountH, allEntriesH]
  | cons p rest ih =>
    rw [List.map_cons, List.filter_cons]
    by_cases hkeep : ((hostCleanup window now p.2).isEmpty : Bool) = true
    · rw [if_neg (by simp [hkeep])]
      rw [entryCountH_cons]
      omega
    · rw [if_pos (by simp [hkeep])]
      rw [entryCountH_cons, entryCountH_cons]
      have hlen : (hostCleanup window now p.2).length ≤ p.2.length :=
        List.length_filter_le _ _
      simp only
      omega

theorem cleanup_members (st : HistState) (window now : Int) (q : String × List BalEntry)
    (hq : q ∈ (cleanup st window now).hosts) :
    ∃ r ∈ st.hosts, q = (r.1, hostCleanup window now r.2) ∧ q.2 ≠ [] := by
  have hq0 : q ∈ (st.hosts.map (fun p => (p.1, hostCleanup window now p.2))).filter
      (fun p => !p.2.isEmpty) := hq
  have hq1 := List.mem_of_mem_filter hq0
  have hq2 := List.of_mem_filter hq0
  obtain ⟨r, hr, hr1⟩ := List.mem_map.mp hq1
  refine ⟨r, hr, hr1.symm, ?_⟩
  simp only [Bool.not_eq_true'] at hq2
  intro hcontra
  rw [hcontra] at hq2
  simp at hq2

theorem cleanup_pre (st : HistState) (window now b : Int)
    (hpre : evictPre st) (hle : entriesLE st.hosts b) :
    evictPre (cleanup st window now) ∧ entriesLE (cleanup st window now).hosts b ∧
    entryCountH (cleanup st window now).hosts ≤ entryCountH st.hosts := by
  obtain ⟨hall, hnd⟩ := hpre
  refine ⟨⟨?_, ?_⟩, ?_, ?_⟩
  · intro q hq
    obtain ⟨r, hr, hq1, hq2⟩ := cleanup_members st window now q hq
    obtain ⟨hr1, -, hr3⟩ := hall r hr
    subst hq1
    exact ⟨hr1, hq2, List.Pairwise.sublist (List.filter_sublist _) hr3⟩
  · have h1 : ((cleanup st window now).hosts.map Prod.fst).Sublist
        ((st.hosts.map (fun p => (p.1, hostCleanup window now p.2))).map Prod.fst) :=
      List.Sublist.map Prod.fst (List.filter_sublist _)
    have h2 : (st.hosts.map (fun p => (p.1, hostCleanup window now p.2))).map Prod.fst
        = st.hosts.map Prod.fst := by
      rw [List.map_map]
      rfl
    rw [h2] at h1
    exact List.Nodup.sublist h1 hnd
  · intro e he
    obtain ⟨q, hq, heq⟩ := mem_allEntriesH.mp he
    obtain ⟨r, hr, hq1, -⟩ := cleanup_members st window now q hq
    rw [hq1] at heq
    have : e ∈ r.2 := List.mem_of_mem_filter heq
    exact hle e (mem_allEntriesH.mpr ⟨r, hr, this⟩)
  · exact countH_cleanup_le window now st.hosts

theorem histAdd_total (st : HistState) (host ip : String) (now : Int) :
    (histAdd st host ip now).totalEntries = st.totalEntries := rfl

theorem histAdd_max (st : HistState) (host ip : String) (now : Int) :
    (histAdd st host ip now).maxTotalEntries = st.maxTotalEntries := rfl

theorem evictOldest_pre (st : HistState) (hpre : evictPre st)
    (hne : st.hosts ≠ []) (b : Int) (hle : entriesLE st.hosts b) :
    evictPre (evictOldestLocked st) ∧
    entriesLE (evictOldestLocked st).hosts b ∧
    entryCountH (evictOldestLocked st).hosts + 1 = entryCountH st.hosts ∧
    (evictOldestLocked st).totalEntries = st.totalEntries - 1 ∧
    (evictOldestLocked st).maxTotalEntries = st.maxTotalEntries := by
  obtain ⟨h, e, tail, hfind, hmin, hhosts, htot, hmax⟩ := evictOldest_spec st hpre hne
  obtain ⟨hall, hnd⟩ := hpre
  have hmem := findH_mem st.hosts h (e :: tail) hfind
  have hh := hall (h, e :: tail) hmem
  by_cases ht : tail = []
  · subst ht
    rw [if_pos rfl] at hhosts
    refine ⟨⟨?_, ?_⟩, ?_, ?_, htot, hmax⟩
    · intro q hq
      rw [hhosts] at hq
      exact hall q (mem_removeH st.hosts h q hq)
    · rw [hhosts]
      exact List.Nodup.sublist (keys_removeH_sublist st.hosts h) hnd
    · intro e2 he2
      rw [hhosts] at he2
      obtain ⟨q, hq, heq⟩ := mem_allEntriesH.mp he2
      exact hle e2 (mem_allEntriesH.mpr ⟨q, mem_removeH st.hosts h q hq, heq⟩)
    · rw [hhosts]
      have hc := countH_removeH st.hosts h
      rw [hfind] at hc
      simpa using hc
  · rw [if_neg ht] at hhosts
    refine ⟨⟨?_, ?_⟩, ?_, ?_, htot, hmax⟩
    · rw [hhosts]
      apply @setH_forall
        (fun q => q.1 ≠ "" ∧ q.2 ≠ [] ∧ q.2.Pairwise (fun a b => a.ts ≤ b.ts))
        st.hosts h tail hall
      exact ⟨hh.1, ht, (List.pairwise_cons.mp hh.2.2).2⟩
    · rw [hhosts]
      exact nodup_keys_setH st.hosts h tail hnd
    · intro e2 he2
      rw [hhosts] at he2
      obtain ⟨q, hq, heq⟩ := mem_allEntriesH.mp he2
      have hQ : ∀ r ∈ setH st.hosts h tail, ∀ e3 ∈ r.2, e3.ts ≤ b := by
        refine @setH_forall (fun q => ∀ e3 ∈ q.2, e3.ts ≤ b) st.hosts h tail ?_ ?_
        · intro r hr e3 he3
          exact hle e3 (mem_allEntriesH.mpr ⟨r, hr, he3⟩)
        · intro e3 he3
          exact hle e3 (mem_allEntriesH.mpr
            ⟨(h, e :: tail), hmem, List.mem_cons_of_mem e he3⟩)
      exact hQ q hq e2 heq
    · rw [hhosts]
      have hc := countH_setH st.hosts h tail
      rw [hfind] at hc
      simp only [Option.getD_some, List.length_cons] at hc
      omega

theorem record_pre (st : HistState) (cap : Int) (host ip : String) (now b : Int)
    (hcap : 0 < cap) (hmax : st.maxTotalEntries = cap)
    (hpre : evictPre st)
    (hct : (entryCountH st.hosts : Int) ≤ st.totalEntries)
    (hcc : (entryCountH st.hosts : Int) ≤ cap)
    (hhost : host ≠ "") (hle : entriesLE st.hosts b) (hb : b ≤ now) :
    evictPre (record st host ip now) ∧
    (record st host ip now).maxTotalEntries = cap ∧
    (entryCountH (record st host ip now).hosts : Int)
      ≤ (record st host ip now).totalEntries ∧
    (entryCountH (record st host ip now).hosts : Int) ≤ cap ∧
    entriesLE (record st host ip now).hosts now := by
  rw [record, if_pos (show st.maxTotalEntries > 0 by omega)]
  by_cases hat : st.totalEntries ≥ st.maxTotalEntries
  · rw [if_pos hat]
    by_cases hnil : st.hosts = []
    · have hevict : evictOldestLocked st = st := by
        rw [evictOldestLocked]
        simp [hnil, scanOldestAux]
      rw [hevict]
      obtain ⟨hp1, hp2⟩ := histAdd_pre
        { st with totalEntries := st.totalEntries + 1 } host ip now b hpre hhost hle hb
      refine ⟨hp1, by rw [histAdd_max]; exact hmax, ?_, ?_, hp2⟩
      · rw [histAdd_total]
        have hc := histAdd_count
          { st with totalEntries := st.totalEntries + 1 } host ip now
        rw [hc]
        have hz : entryCountH st.hosts = 0 := by
          rw [hnil]; rfl
        simp only [hz] at hct ⊢
        push_cast
        omega
      · have hc := histAdd_count
          { st with totalEntries := st.totalEntries + 1 } host ip now
        rw [hc]
        have hz : entryCountH st.hosts = 0 := by
          rw [hnil]; rfl
        simp only [hz]
        push_cast
        omega
    · obtain ⟨hepre, hele, hecount, hetot, hemax⟩ := evictOldest_pre st hpre hnil b hle
      obtain ⟨hp1, hp2⟩ := histAdd_pre
        { evictOldestLocked st with
          totalEntries := (evictOldestLocked st).totalEntries + 1 }
        host ip now b hepre hhost hele hb
      refine ⟨hp1, ?_, ?_, ?_, hp2⟩
      · rw [histAdd_max]
        show (evictOldestLocked st).maxTotalEntries = cap
        rw [hemax, hmax]
      · rw [histAdd_total]
        have hc := histAdd_count
          { evictOldestLocked st with
            totalEntries := (evictOldestLocked st).totalEntries + 1 } host ip now
        rw [hc]
        show ((entryCountH (evictOldestLocked st).hosts + 1 : Nat) : Int)
          ≤ (evictOldestLocked st).totalEntries + 1
        rw [hetot]
        push_cast
        omega
      · have hc := histAdd_count
          { evictOldestLocked st with
            totalEntries := (evictOldestLocked st).totalEntries + 1 } host ip now
        rw [hc]
        push_cast
        omega
  · rw [if_neg hat]
    push_neg at hat
    obtain ⟨hp1, hp2⟩ := histAdd_pre
      { st with totalEntries := st.totalEntries + 1 } host ip now b hpre hhost hle hb
    refine ⟨hp1, by rw [histAdd_max]; exact hmax, ?_, ?_, hp2⟩
    · rw [histAdd_total]
      have hc := histAdd_count
        { st with totalEntries := st.totalEntries + 1 } host ip now
      rw [hc]
      push_cast
      omega
    · have hc := histAdd_count
        { st with totalEntries := st.totalEntries + 1 } host ip now
      rw [hc]
      push_cast
      omega

/-! ### History traces -/

/-- One `History` operation, with the clock instant at which it runs. -/
inductive HistOp where
  | recOp (host ip : String) (now : Int)
  | cleanOp (window now : Int)
deriving Repr, DecidableEq

/-- State transition of one operation. -/
def histStep (st : HistState) : HistOp → HistState
  | HistOp.recOp host ip now => record st host ip now
  | HistOp.cleanOp window now => cleanup st window now

/-- Running a trace from a fresh capped history. -/
def histRun (cap : Int) (ops : List HistOp) : HistState :=
  ops.foldl histStep (newHistory cap)

/-- The recorded host name is non-empty (`Record` ops only). -/
def opHostOK : HistOp → Bool
  | HistOp.recOp host _ _ => host ≠ ""
  | HistOp.cleanOp _ _ => true

/-- The instants of the `Record` operations, in order. -/
def recTimes : List HistOp → List Int
  | [] => []
  | HistOp.recOp _ _ now :: ops => now :: recTimes ops
  | HistOp.cleanOp _ _ :: ops => recTimes ops

/-- A lower bound of a list of instants (Go's monotonic clock starts
somewhere; any bound below the first record works). -/
def listMinI : List Int → Int
  | [] => 0
  | t :: ts => min t (listMinI ts)

theorem listMinI_le : ∀ (ts : List Int), ∀ t ∈ ts, listMinI ts ≤ t := by
  intro ts
  induction ts with
  | nil => intro t ht; simp at ht
  | cons a rest ih =>
    intro t ht
    rcases List.mem_cons.mp ht with h | h
    · subst h; simp [listMinI]
    · exact le_trans (by simp [listMinI]) (ih t h)

theorem histRun_inv (cap : Int) (hcap : 0 < cap) :
    ∀ (ops : List HistOp) (st : HistState) (b : Int),
      evictPre st → st.maxTotalEntries = cap →
      (entryCountH st.hosts : Int) ≤ st.totalEntries →
      (entryCountH st.hosts : Int) ≤ cap →
      entriesLE st.hosts b →
      (∀ op ∈ ops, opHostOK op = true) →
      (recTimes ops).Pairwise (· ≤ ·) →
      (∀ t ∈ recTimes ops, b ≤ t) →
      ∀ n, evictPre (List.foldl histStep st (ops.take n)) ∧
        (entryCountH (List.foldl histStep st (ops.take n)).hosts : Int) ≤ cap := by
  intro ops
  induction ops with
  | nil =>
    intro st b hpre _ _ hcc _ _ _ _ n
    simp only [List.take_nil, List.foldl_nil]
    exact ⟨hpre, hcc⟩
  | cons op rest ih =>
    intro st b hpre hmax hct hcc hle hops hpw hbt n
    match n with
    | 0 => exact ⟨hpre, hcc⟩
    | Nat.succ n =>
      rw [List.take_succ_cons, List.foldl_cons]
      match op with
      | HistOp.recOp host ip now =>
        have hhost : host ≠ "" := by
          have := hops _ (List.mem_cons_self _ _)
          simpa [opHostOK] using this
        have hbnow : b ≤ now := hbt now (by simp [recTimes])
        obtain ⟨hp1, hp2, hp3, hp4, hp5⟩ :=
          record_pre st cap host ip now b hcap hmax hpre hct hcc hhost hle hbnow
        have hpwr : (recTimes (HistOp.recOp host ip now :: rest)).Pairwise (· ≤ ·)
          := hpw
        rw [recTimes, List.pairwise_cons] at hpwr
        exact ih (record st host ip now) now hp1 hp2 hp3 hp4 hp5
          (fun o ho => hops o (List.mem_cons_of_mem _ ho)) hpwr.2 hpwr.1 n
      | HistOp.cleanOp window nowc =>
        obtain ⟨hp1, hp2, hp3⟩ := cleanup_pre st window nowc b hpre hle
        have hct2 : (entryCountH (cleanup st window nowc).hosts : Int)
            ≤ (cleanup st window nowc).totalEntries := by
          have htot : (cleanup st window nowc).totalEntries = st.totalEntries := rfl
          rw [htot]
          have : ((entryCountH (cleanup st window nowc).hosts : Int))
              ≤ (entryCountH st.hosts : Int) := by exact_mod_cast hp3
          omega
        have hcc2 : (entryCountH (cleanup st window nowc).hosts : Int) ≤ cap := by
          have : ((entryCountH (cleanup st window nowc).hosts : Int))
              ≤ (entryCountH st.hosts : Int) := by exact_mod_cast hp3
          omega
        have hrt : recTimes (HistOp.cleanOp window nowc :: rest) = recTimes rest := rfl
        rw [hrt] at hpw
        exact ih (cleanup st window nowc) b hp1 hmax hct2 hcc2 hp2
          (fun o ho => hops o (List.mem_cons_of_mem _ ho)) hpw
          (fun t ht => hbt t (by rw [hrt]; exact ht)) n

/-- C5 counterexample: with `max_total_entries = 1`, a first `Record`
under the EMPTY host name defeats the `oldestHost != ""` sentinel of
`evictOldestLocked`, so the second `Record` skips eviction and the stored
entry count reaches `2 > 1`. -/
theorem history_cap_counterexample :
    entryCount (histRun 1 [HistOp.recOp "" "10.0.0.1" 1, HistOp.recOp "h" "10.0.0.1" 2])
      = 2 ∧ (1 : Int) < 2 := by
  constructor
  · rfl
  · decide

/-- C5 amended: provided every recorded host name is non-empty (the
`oldestHost != ""` sentinel otherwise skips eviction) and the clock is
monotone, the stored entry count never exceeds the cap `C` and no host
ever maps to an empty history (an emptied host is removed); moreover, on
any well-formed state with at least one entry, `evictOldestLocked`
removes exactly one entry carrying the globally oldest timestamp,
dropping the host when that was its last entry; and a `Record` arriving
with the count at the cap evicts before inserting. -/
theorem history_cap_spec (cap : Int) (hcap : 0 < cap) (ops : List HistOp)
    (hhost : ∀ op ∈ ops, opHostOK op = true)
    (hmono : (recTimes ops).Pairwise (· ≤ ·)) :
    (∀ n, (entryCount (histRun cap (ops.take n)) : Int) ≤ cap ∧
      ∀ p ∈ (histRun cap (ops.take n)).hosts, p.2 ≠ []) ∧
    (∀ st : HistState, evictPre st → st.hosts ≠ [] →
      ∃ h e tail, findH st.hosts h = some (e :: tail) ∧
        (∀ e2 ∈ allEntriesH st.hosts, e.ts ≤ e2.ts) ∧
        (evictOldestLocked st).hosts
          = (if tail = [] then removeH st.hosts h else setH st.hosts h tail) ∧
        (evictOldestLocked st).totalEntries = st.totalEntries - 1) ∧
    (∀ (st : HistState) (host ip : String) (now : Int),
      st.maxTotalEntries = cap → (entryCountH st.hosts : Int) ≤ st.totalEntries →
      (entryCountH st.hosts : Int) = cap →
      record st host ip now
        = histAdd { evictOldestLocked st with
            totalEntries := (evictOldestLocked st).totalEntries + 1 } host ip now) := by
  refine ⟨?_, ?_, ?_⟩
  · intro n
    have hb := listMinI_le (recTimes ops)
    have hpre0 : evictPre (newHistory cap) := by
      constructor
      · intro p hp
        simp [newHistory] at hp
      · simp [newHistory]
    have h := histRun_inv cap hcap ops (newHistory cap) (listMinI (recTimes ops))
      hpre0 rfl (by simp [newHistory, entryCountH, allEntriesH])
      (by simp [newHistory, entryCountH, allEntriesH]; omega)
      (by intro e he; simp [newHistory, allEntriesH] at he)
      hhost hmono hb n
    exact ⟨h.2, fun p hp => (h.1.1 p hp).2.1⟩
  · intro st hpre hne
    obtain ⟨h, e, tail, h1, h2, h3, h4, -⟩ := evictOldest_spec st hpre hne
    exact ⟨h, e, tail, h1, h2, h3, h4⟩
  · intro st host ip now hmax hct hatcap
    rw [record, if_pos (show st.maxTotalEntries > 0 by omega),
      if_pos (show st.totalEntries ≥ st.maxTotalEntries by omega)]

/-- C5 amended witness: two records with distinct hosts under cap 1. -/
theorem history_cap_spec_witness :
    (entryCount (histRun 1
        ([HistOp.recOp "a" "10.0.0.1" 1, HistOp.recOp "b" "10.0.0.1" 2].take 2)) : Int)
      ≤ 1 := by
  have h := history_cap_spec 1 (by decide)
    [HistOp.recOp "a" "10.0.0.1" 1, HistOp.recOp "b" "10.0.0.1" 2]
    (by decide) (by decide)
  exact (h.1 2).1

end OutboundLB
